import Mathlib

/-!
Verification of the changesets-changelog-github-local changelog generator.

The development shallowly embeds the two source files of the repository
(`src/_utils.ts` and `src/index.ts`).  Strings are modelled as Lean `String`
(a wrapper around `List Char`); the three JavaScript regular expressions used
by the code are translated into explicit, deterministic matchers over
`List Char` (each regex is analysed in a comment next to its matcher, and the
backtracking behaviour of the JS engine is reproduced where it matters).
JavaScript truthiness on optional numbers and strings is made explicit
(`0`, `""`, absent are falsy).  The git repository and commit lookup are an
external collaborator boundary and are modelled as an explicit parameter: a
possibly-failing discovery result carrying a commit-lookup function.
-/

set_option maxRecDepth 8192

/-- Decidable equality for `Except`, used to evaluate the embedded operations
on concrete inputs. -/
instance {ε α : Type} [DecidableEq ε] [DecidableEq α] : DecidableEq (Except ε α) := fun a b =>
  match a, b with
  | .error e, .error f =>
    if h : e = f then .isTrue (congrArg Except.error h)
    else .isFalse (fun g => h (Except.error.inj g))
  | .ok x, .ok y =>
    if h : x = y then .isTrue (congrArg Except.ok h)
    else .isFalse (fun g => h (Except.ok.inj g))
  | .error _, .ok _ => .isFalse Except.noConfusion
  | .ok _, .error _ => .isFalse Except.noConfusion

/-- JavaScript `\s` for the character set relevant to this code base
(ASCII whitespace including the line terminators used by the summaries). -/
def isWs (c : Char) : Bool :=
  c = ' ' || c = '\t' || c = '\n' || c = '\r' || c = '\x0b' || c = '\x0c'

/-- JavaScript `\d`. -/
def isDigitCh (c : Char) : Bool :=
  '0' ≤ c && c ≤ '9'

/-- JavaScript `String.prototype.trim` on the character list: drop leading and
trailing whitespace. -/
def trimList (l : List Char) : List Char :=
  ((l.dropWhile isWs).reverse.dropWhile isWs).reverse

/-- JavaScript `String.prototype.trim`. -/
def jsTrim (s : String) : String :=
  String.mk (trimList s.toList)

/-- JavaScript `String.prototype.split('\n')` on a character list: the
resulting list is never empty, and chunks do not contain `'\n'`. -/
def splitNl : List Char → List (List Char)
  | [] => [[]]
  | c :: cs =>
    if c = '\n' then [] :: splitNl cs
    else
      match splitNl cs with
      | h :: t => (c :: h) :: t
      | [] => [[c]]

/-- JavaScript `s.split('\n')`. -/
def jsSplitNl (s : String) : List String :=
  (splitNl s.toList).map String.mk

/-- JavaScript `s.split('\n')[0]`. -/
def firstLineOf (s : String) : String :=
  (jsSplitNl s).headD ""

/-- Case-insensitive literal matcher: `matchCI pat cs` consumes the
(ASCII, lowercase) pattern `pat` from the front of `cs` case-insensitively and
returns the rest, or `none`. -/
def matchCI : List Char → List Char → Option (List Char)
  | [], cs => some cs
  | _ :: _, [] => none
  | p :: ps, c :: cs => if c.toLower = p then matchCI ps cs else none

/-- The keyword part `(?:pr|pull|pull\s+request):` of the first `cleanSummary`
regex (case-insensitive).  The three alternatives are mutually exclusive once
the following `:` is taken into account, so the JS alternation order is
irrelevant; `pull\s+request` requires at least one whitespace character. -/
def matchPrKeyword (cs : List Char) : Option (List Char) :=
  match matchCI ['p', 'r', ':'] cs with
  | some r => some r
  | none =>
    match matchCI ['p', 'u', 'l', 'l', ':'] cs with
    | some r => some r
    | none =>
      match matchCI ['p', 'u', 'l', 'l'] cs with
      | some r =>
        if (r.takeWhile isWs).isEmpty then none
        else matchCI ['r', 'e', 'q', 'u', 'e', 's', 't', ':'] (r.dropWhile isWs)
      | none => none

/-- `/^\s*(?:pr|pull|pull\s+request):\s*#?(\d+)/im` applied at one candidate
position (which the caller guarantees to be a line start): greedy whitespace,
the keyword, greedy whitespace, an optional `#`, one or more digits.  Each
greedy step is deterministic (the following literal can never match a
character the greedy step could give back); if the optional `#` is consumed
but no digit follows, backtracking cannot help since `#` is not a digit.
`skipHash` is the `#?` part, `digitsRun` the `(\d+)` part; `prMatch` returns
the remaining suffix after the whole match. -/
def skipHash : List Char → List Char
  | '#' :: r => r
  | r => r

/-- `(\d+)`: one or more digits, greedy.  Returns the rest. -/
def digitsRun (cs : List Char) : Option (List Char) :=
  match cs with
  | c :: _ => if isDigitCh c then some (cs.dropWhile isDigitCh) else none
  | [] => none

def prMatch (cs : List Char) : Option (List Char) :=
  match matchPrKeyword (cs.dropWhile isWs) with
  | none => none
  | some r1 => digitsRun (skipHash (r1.dropWhile isWs))

/-- `\S+`: one or more non-whitespace characters, greedy.  Returns the rest. -/
def matchNonWs (cs : List Char) : Option (List Char) :=
  match cs with
  | c :: _ => if isWs c then none else some (cs.dropWhile (fun x => !(isWs x)))
  | [] => none

/-- `/^\s*commit:\s*(\S+)/im` applied at one line-start position. -/
def commitMatch (cs : List Char) : Option (List Char) :=
  match matchCI ['c', 'o', 'm', 'm', 'i', 't', ':'] (cs.dropWhile isWs) with
  | none => none
  | some r1 => matchNonWs (r1.dropWhile isWs)

/-- `/^\s*(?:author|user):\s*@?(\S+)/gim` applied at one line-start position.
JS backtracking on `@?(\S+)`: if consuming the `@` leaves nothing for `\S+`
to match, the engine backtracks and `\S+` matches the `@` itself; `atToken`
is the `@?(\S+)` part. -/
def atToken : List Char → Option (List Char)
  | '@' :: r =>
    match matchNonWs r with
    | some rest => some rest
    | none => some r
  | r => matchNonWs r

def authorMatch (cs : List Char) : Option (List Char) :=
  match matchCI ['a', 'u', 't', 'h', 'o', 'r', ':'] (cs.dropWhile isWs) with
  | some r1 => atToken (r1.dropWhile isWs)
  | none =>
    match matchCI ['u', 's', 'e', 'r', ':'] (cs.dropWhile isWs) with
    | some r1 => atToken (r1.dropWhile isWs)
    | none => none

/-- First-occurrence replacement with the empty string for a `/m`-flagged,
`^`-anchored pattern: scan positions left to right, attempt the matcher only
at line starts, and delete the first match.  `none` when no position
matches. -/
def replFirst (m : List Char → Option (List Char)) :
    List Char → Bool → Option (List Char)
  | [], atLS => if atLS then m [] else none
  | c :: cs, atLS =>
    if atLS then
      match m (c :: cs) with
      | some rest => some rest
      | none => (replFirst m cs (c = '\n')).map (c :: ·)
    else (replFirst m cs (c = '\n')).map (c :: ·)

/-- Global replacement with the empty string for a `/gm`-flagged, `^`-anchored
pattern: after each (non-empty) match the scan resumes right after the match;
all the matchers end in a non-whitespace character, so the position after a
match is never a line start.  `fuel` bounds the recursion; `fuel = length + 1`
always suffices since every step consumes at least one character. -/
def replAllAux (m : List Char → Option (List Char)) :
    Nat → List Char → Bool → List Char
  | 0, cs, _ => cs
  | _ + 1, [], _ => []
  | fuel + 1, c :: cs, atLS =>
    if atLS then
      match m (c :: cs) with
      | some rest => replAllAux m fuel rest false
      | none => c :: replAllAux m fuel cs (c = '\n')
    else c :: replAllAux m fuel cs (c = '\n')

/-- Whether a `^`-anchored pattern matches at some line-start position. -/
def hasMatchLS (m : List Char → Option (List Char)) :
    List Char → Bool → Bool
  | [], atLS => atLS && (m []).isSome
  | c :: cs, atLS =>
    (atLS && (m (c :: cs)).isSome) || hasMatchLS m cs (c = '\n')

/-- `s.replace(pattern, '')` for a first-occurrence (`/im`) pattern. -/
def replaceFirstPat (m : List Char → Option (List Char)) (s : String) : String :=
  match replFirst m s.toList true with
  | some cs => String.mk cs
  | none => s

/-- `s.replace(pattern, '')` for a global (`/gim`) pattern. -/
def replaceAllPat (m : List Char → Option (List Char)) (s : String) : String :=
  String.mk (replAllAux m (s.toList.length + 1) s.toList true)

/-- `cleanSummary` from `src/_utils.ts`:
three successive `String.replace` calls followed by `trim`. -/
def cleanSummary (summary : String) : String :=
  jsTrim (replaceAllPat authorMatch
    (replaceFirstPat commitMatch
      (replaceFirstPat prMatch summary)))

/-- Whether `/^\s*(?:pr|pull|pull\s+request):\s*#?(\d+)/im` matches in `s`. -/
def hasPrPat (s : String) : Bool := hasMatchLS prMatch s.toList true

/-- Whether `/^\s*commit:\s*(\S+)/im` matches in `s`. -/
def hasCommitPat (s : String) : Bool := hasMatchLS commitMatch s.toList true

/-- Whether `/^\s*(?:author|user):\s*@?(\S+)/gim` matches in `s`. -/
def hasAuthorPat (s : String) : Bool := hasMatchLS authorMatch s.toList true

/-- Decimal value of a digit run (JavaScript `Number.parseInt(ds, 10)` on a
non-empty all-digit string). -/
def digitsToNat (ds : List Char) : Nat :=
  ds.foldl (fun n c => n * 10 + (c.toNat - '0'.toNat)) 0

/-- First alternative `\(#(\d+)\)$` of the `getPrNumber` regex, applied at one
position: literal `(#`, one or more digits (greedy, deterministic since `)`
is not a digit), literal `)`, end of string.  Returns the captured digits. -/
def alt1At (cs : List Char) : Option (List Char) :=
  match cs with
  | '(' :: '#' :: r =>
    if (r.takeWhile isDigitCh).isEmpty then none
    else
      match r.dropWhile isDigitCh with
      | [')'] => some (r.takeWhile isDigitCh)
      | _ => none
  | _ => none

/-- Second alternative `#(\d+)\s*$` of the `getPrNumber` regex, applied at one
position: literal `#`, one or more digits (greedy), then only whitespace up to
the end of the string.  Returns the captured digits. -/
def alt2At (cs : List Char) : Option (List Char) :=
  match cs with
  | '#' :: r =>
    if (r.takeWhile isDigitCh).isEmpty then none
    else if (r.dropWhile isDigitCh).all isWs then some (r.takeWhile isDigitCh)
    else none
  | _ => none

/-- `firstLine.match(/\(#(\d+)\)$|#(\d+)\s*$/)`: the JS engine returns the
leftmost match, trying the first alternative before the second at each
position.  Returns the captured digit run. -/
def findPrRef : List Char → Option (List Char)
  | [] => none
  | c :: cs =>
    match alt1At (c :: cs) with
    | some ds => some ds
    | none =>
      match alt2At (c :: cs) with
      | some ds => some ds
      | none => findPrRef cs

/-- `getPrNumber` from `src/_utils.ts`.  `undefined` and the empty string are
falsy, so both yield `none`; otherwise the first line is trimmed and matched
against the regex, and the captured digits are parsed. -/
def getPrNumber (commitMessage : Option String) : Option Nat :=
  match commitMessage with
  | none => none
  | some msg =>
    if msg = "" then none
    else
      match findPrRef (jsTrim (firstLineOf msg)).toList with
      | none => none
      | some ds => some (digitsToNat ds)

/-- Validated options: a `repo` string of the form `org/repo`
(`ValidOptions` in `src/types.ts`). -/
structure ValidOptions where
  repo : String
deriving Repr, DecidableEq

/-- `getRepoUrl` from `src/_utils.ts`. -/
def getRepoUrl (options : ValidOptions) : String :=
  "https://github.com/" ++ options.repo

/-- `getCommitUrl` from `src/_utils.ts`. -/
def getCommitUrl (options : ValidOptions) (commitHash : String) : String :=
  getRepoUrl options ++ "/commit/" ++ commitHash

/-- `getPrUrl` from `src/_utils.ts`. -/
def getPrUrl (options : ValidOptions) (prNumber : Nat) : String :=
  getRepoUrl options ++ "/pull/" ++ toString prNumber

/-- `getShortSha` from `src/_utils.ts`: `commitHash.slice(0, 7)`. -/
def getShortSha (commitHash : String) : String :=
  commitHash.take 7

/-- JavaScript truthiness of an optional number (`0` and absent are falsy). -/
def jsTruthyNum (pr : Option Nat) : Bool :=
  match pr with
  | some n => n ≠ 0
  | none => false

/-- JavaScript truthiness of an optional string (`""` and absent are falsy). -/
def jsTruthyStr (s : Option String) : Bool :=
  match s with
  | some v => v ≠ ""
  | none => false

/-- The `else if (commitSha)` / `else` part of `getSuffix`. -/
def suffixSha (commitSha : Option String) (options : ValidOptions) : String :=
  match commitSha with
  | some sha =>
    if sha = "" then ""
    else " ([`" ++ getShortSha sha ++ "`](" ++ getCommitUrl options sha ++ "))"
  | none => ""

/-- `getSuffix` from `src/_utils.ts`: `if (pr) … else if (commitSha) … else ""`
with JavaScript truthiness. -/
def getSuffix (pr : Option Nat) (commitSha : Option String)
    (options : ValidOptions) : String :=
  match pr with
  | some p =>
    if p = 0 then suffixSha commitSha options
    else " ([#" ++ toString p ++ "](" ++ getPrUrl options p ++ "))"
  | none => suffixSha commitSha options

/-- A dynamically-typed JavaScript value as it can appear in the untyped
`repo` field handed to `validate`. -/
inductive JSValue where
  | str : String → JSValue
  | num : Int → JSValue
  | bool : Bool → JSValue
  | null : JSValue
deriving Repr, DecidableEq

/-- JavaScript truthiness of a `JSValue`. -/
def jsTruthy : JSValue → Bool
  | .str s => s ≠ ""
  | .num n => n ≠ 0
  | .bool b => b
  | .null => false

/-- The untyped options object handed to the two changelog operations:
either absent (`null`) or an object with an optional `repo` field. -/
structure RawOptions where
  repo : Option JSValue
deriving Repr, DecidableEq

/-- `ORG_REPO_REGEX = /^[^/\s]+\/[^/\s]+$/` from `src/_utils.ts`, as its
(deterministic) anchored-match test: a non-empty run of characters that are
neither `/` nor whitespace, one `/`, and a second such run reaching the end of
the string. -/
def segChar (c : Char) : Bool :=
  c ≠ '/' && !(isWs c)

def orgRepoTest (s : String) : Bool :=
  !(s.toList.takeWhile segChar).isEmpty &&
    match s.toList.dropWhile segChar with
    | '/' :: b => !b.isEmpty && b.all segChar
    | _ => false

/-- Message of the error thrown by `validate` when the options are absent or
the `repo` field is missing (falsy). -/
def missingRepoMsg : String :=
  "Please provide a repo for this changelog generator.\n\"example\": [\"changesets-changelog-github-local\", \x7b \"repo\": \"org/repo\" \x7d]"

/-- Message of the error thrown by `validate` when `repo` is present but not a
well-formed `org/repo` string. -/
def invalidRepoFormatMsg : String :=
  "Invalid repo format. Please use the format \"org/repo\""

/-- `validate` from `src/_utils.ts`.  The source is a TypeScript assertion
function (it throws or narrows the caller's reference); following the
discriminated-result shape, success carries the narrowed `ValidOptions`.
`!options || !options.repo` uses JavaScript truthiness. -/
def validate (options : Option RawOptions) : Except String ValidOptions :=
  match options with
  | none => .error missingRepoMsg
  | some o =>
    match o.repo with
    | none => .error missingRepoMsg
    | some v =>
      if jsTruthy v then
        match v with
        | .str s => if orgRepoTest s then .ok ⟨s⟩ else .error invalidRepoFormatMsg
        | _ => .error invalidRepoFormatMsg
      else .error missingRepoMsg

/-- One release entry of a changeset (`releases` array element). -/
structure Release where
  name : String
  type : String
deriving Repr, DecidableEq

/-- `NewChangesetWithCommit`: a change record with an optional originating
commit hash. -/
structure ChangeRecord where
  id : String
  summary : String
  releases : List Release
  commit : Option String
deriving Repr, DecidableEq

/-- `ModCompWithPackage`: a dependency bump (read-only input; the
`packageJson` reference is irrelevant to the formatting and omitted). -/
structure DependencyBump where
  name : String
  newVersion : String
  oldVersion : String
  type : String
  changesets : List String
  dir : String
deriving Repr, DecidableEq

/-- `getDependencyReleaseLine` from `src/index.ts`: validate, return `""` on
no bumps, otherwise a header line linking every commit-bearing changeset
followed by one `  - name@newVersion` line per bump, joined by newlines. -/
def getDependencyReleaseLine (changesets : List ChangeRecord)
    (dependenciesUpdated : List DependencyBump)
    (options : Option RawOptions) : Except String String :=
  match validate options with
  | .error e => .error e
  | .ok opts =>
    if dependenciesUpdated.length = 0 then .ok ""
    else
      let links := (changesets.map (fun c =>
        match c.commit with
        | some sha =>
          if sha = "" then none
          else some ("[`" ++ getShortSha sha ++ "`](" ++ getCommitUrl opts sha ++ ")")
        | none => none)).filterMap id
      let changesetLink :=
        "- Updated dependencies [" ++ String.intercalate ", " links ++ "]:"
      let updatedDependenciesList :=
        dependenciesUpdated.map (fun d => "  - " ++ d.name ++ "@" ++ d.newVersion)
      .ok (String.intercalate "\n" (changesetLink :: updatedDependenciesList))

/-- A commit object as exposed by the git collaborator: only its message is
read. -/
structure Commit where
  message : String
deriving Repr, DecidableEq

/-- The discovered repository handle: `findCommit` may throw (error), return
nothing, or return a commit; `isShallow` drives the advisory warning. -/
structure Repo where
  findCommit : String → Except String (Option Commit)
  isShallow : Bool

/-- Warnings emitted through `console.warn`. -/
inductive Warning where
  | shallowClone (ci : Bool)
  | commitLookupFailed (hash : String) (cause : String)
deriving Repr, DecidableEq

/-- `getRepository` from `src/_utils.ts`: repository discovery from the
current working directory, modelled by the `disc` parameter.  Discovery
failure is fatal and rewrapped; a shallow clone produces an advisory warning
whose wording depends on the CI environment indicator. -/
def getRepository (disc : Except String Repo) (githubAction : Bool) :
    Except String Repo × List Warning :=
  match disc with
  | .ok repo => (.ok repo, if repo.isShallow then [.shallowClone githubAction] else [])
  | .error e => (.error ("Repository.discover failed: " ++ e), [])

/-- The commit-message resolution block of `getReleaseLine`
(`if (changeset.commit) { try { … } catch { console.warn(…) } }`): a falsy
commit skips the lookup entirely; a throwing lookup logs a warning and leaves
the message absent; a truthy message is cut down to its trimmed first line. -/
def resolveCommitMsg (repository : Repo) (commit : Option String) :
    Option String × List Warning :=
  match commit with
  | none => (none, [])
  | some hash =>
    if hash = "" then (none, [])
    else
      match repository.findCommit hash with
      | .error err => (none, [.commitLookupFailed hash err])
      | .ok none => (none, [])
      | .ok (some c) =>
        if c.message = "" then (none, [])
        else (some (jsTrim (firstLineOf c.message)), [])

/-- `getReleaseLine` from `src/index.ts`: validate, discover the repository
(unconditionally), clean the summary, resolve the commit message, build the
suffix from the extracted PR number with the raw commit hash as fallback, and
assemble the Markdown lines.  The bump-type argument is unused by the
source and kept for fidelity. -/
def getReleaseLine (disc : Except String Repo) (githubAction : Bool)
    (changeset : ChangeRecord) (_ty : String) (options : Option RawOptions) :
    Except String String × List Warning :=
  match validate options with
  | .error e => (.error e, [])
  | .ok opts =>
    match getRepository disc githubAction with
    | (.error e, ws) => (.error e, ws)
    | (.ok repository, ws) =>
      let summary := cleanSummary changeset.summary
      let mr := resolveCommitMsg repository changeset.commit
      let parts := jsSplitNl summary
      let firstLine := parts.headD ""
      let restOfLines := parts.tail
      let suffix := getSuffix (getPrNumber mr.1) changeset.commit opts
      (.ok ("\n- " ++ firstLine ++ suffix ++ "\n" ++
        String.intercalate "\n" (restOfLines.map (fun l => "  " ++ l))),
        ws ++ mr.2)

/-! ## Basic list helpers -/

theorem takeWhile_append_all {p : Char → Bool} :
    ∀ {l r : List Char}, (∀ c ∈ l, p c) → (l ++ r).takeWhile p = l ++ r.takeWhile p
  | [], _, _ => rfl
  | c :: l, r, h => by
    have hc : p c := h c (List.mem_cons_self c l)
    simp only [List.cons_append, List.takeWhile_cons, hc, if_true]
    rw [takeWhile_append_all (fun x hx => h x (List.mem_cons_of_mem c hx))]

theorem dropWhile_append_all {p : Char → Bool} :
    ∀ {l r : List Char}, (∀ c ∈ l, p c) → (l ++ r).dropWhile p = r.dropWhile p
  | [], _, _ => rfl
  | c :: l, r, h => by
    have hc : p c := h c (List.mem_cons_self c l)
    simp only [List.cons_append, List.dropWhile_cons, hc, if_true]
    exact dropWhile_append_all (fun x hx => h x (List.mem_cons_of_mem c hx))

theorem mem_of_takeWhile {p : Char → Bool} :
    ∀ {l : List Char} {c : Char}, c ∈ l.takeWhile p → p c
  | [], c, h => absurd h (List.not_mem_nil c)
  | a :: l, c, h => by
    by_cases ha : p a
    · rw [List.takeWhile_cons, if_pos ha] at h
      rcases List.mem_cons.mp h with h | h
      · rwa [h]
      · exact mem_of_takeWhile h
    · rw [List.takeWhile_cons, if_neg ha] at h
      exact absurd h (List.not_mem_nil c)

theorem mem_of_getLast?_eq {α : Type} :
    ∀ {l : List α} {a : α}, l.getLast? = some a → a ∈ l
  | [x], a, h => by
    simp only [List.getLast?_singleton, Option.some.injEq] at h
    simp [h]
  | x :: y :: l, a, h => by
    rw [List.getLast?_cons_cons] at h
    exact List.mem_cons_of_mem x (mem_of_getLast?_eq h)

theorem head?_dropWhile_false {p : Char → Bool} :
    ∀ {l : List Char} {c : Char}, (l.dropWhile p).head? = some c → p c = false
  | a :: l, c, h => by
    by_cases ha : p a
    · rw [List.dropWhile_cons_of_pos ha] at h
      exact head?_dropWhile_false h
    · rw [List.dropWhile_cons_of_neg ha] at h
      simp only [List.head?_cons, Option.some.injEq] at h
      rw [← h]
      exact Bool.of_not_eq_true ha

/-! ## C10: truthiness edge cases of getSuffix -/

/-- C10: `getSuffix` tests presence by JavaScript truthiness, so the PR
number `0` and the empty-string commit hash behave exactly like absent
values, and `getSuffix (some 0) none` is the empty string. -/
theorem getSuffix_truthiness (pr : Option Nat) (sha : Option String)
    (opts : ValidOptions) :
    getSuffix (some 0) sha opts = getSuffix none sha opts ∧
    getSuffix pr (some "") opts = getSuffix pr none opts ∧
    getSuffix (some 0) none opts = "" := by
  refine ⟨rfl, ?_, rfl⟩
  cases pr with
  | none => rfl
  | some p =>
    by_cases hp : p = 0 <;> simp [getSuffix, suffixSha, hp]

/-! ## C7: getSuffix precedence -/

/-- C7: for a genuine PR number (positive) and a genuine commit hash
(non-empty), `getSuffix` always prefers the PR link, uses the short-hash
commit link when only the hash is present, and is empty exactly when both
are absent. -/
theorem getSuffix_precedence (pr : Option Nat) (sha : Option String)
    (opts : ValidOptions)
    (hpr : ∀ n, pr = some n → 0 < n)
    (hsha : ∀ s, sha = some s → s ≠ "") :
    (∀ n, pr = some n →
      getSuffix pr sha opts = " ([#" ++ toString n ++ "](" ++ getPrUrl opts n ++ "))") ∧
    (pr = none → ∀ s, sha = some s →
      getSuffix pr sha opts =
        " ([`" ++ getShortSha s ++ "`](" ++ getCommitUrl opts s ++ "))") ∧
    (getSuffix pr sha opts = "" ↔ pr = none ∧ sha = none) := by
  refine ⟨?_, ?_, ?_⟩
  · intro n hn
    subst hn
    have : n ≠ 0 := Nat.pos_iff_ne_zero.mp (hpr n rfl)
    simp [getSuffix, this]
  · intro hp s hs
    subst hp; subst hs
    have : s ≠ "" := hsha s rfl
    simp [getSuffix, suffixSha, this]
  · constructor
    · intro h
      cases pr with
      | some n =>
        have hn : n ≠ 0 := Nat.pos_iff_ne_zero.mp (hpr n rfl)
        simp only [getSuffix, hn, if_neg hn] at h
        exact absurd (congrArg String.data h) (by simp [String.data_append])
      | none =>
        cases sha with
        | some s =>
          have hs : s ≠ "" := hsha s rfl
          simp only [getSuffix, suffixSha, hs, if_neg hs] at h
          exact absurd (congrArg String.data h) (by simp [String.data_append])
        | none => exact ⟨rfl, rfl⟩
    · rintro ⟨hp, hs⟩
      subst hp; subst hs
      rfl

/-- Witness for C7 at the repository's own test inputs. -/
theorem getSuffix_precedence_witness :
    (∀ n, (some 123 : Option Nat) = some n → 0 < n) ∧
    getSuffix (some 123) (some "1234567890abcdef") ⟨"owner/repo"⟩ =
      " ([#123](https://github.com/owner/repo/pull/123))" := by
  refine ⟨fun n hn => by cases hn; decide, ?_⟩
  have h := getSuffix_precedence (some 123) (some "1234567890abcdef") ⟨"owner/repo"⟩
    (fun n hn => by cases hn; decide) (fun s hs => by cases hs; decide)
  have := h.1 123 rfl
  rw [this]
  decide

/-! ## C1: the dependency-release header -/

/-- C1: evaluation of `getDependencyReleaseLine` when no supplied change
record carries a commit hash.  The code emits the literal bracket pair
unconditionally, producing `"- Updated dependencies []:"` — not the
`"- Updated dependencies:"` header the specification (and the repository's
own test `handles updates without changesets`) require. -/
theorem getDependencyReleaseLine_empty_link_list :
    getDependencyReleaseLine
      [⟨"changeset-1", "A summary", [⟨"pkg-1", "minor"⟩], none⟩]
      [⟨"pkg-1", "1.0.0", "0.9.0", "minor", ["changeset-1"], "packages/pkg-1"⟩]
      (some ⟨some (.str "owner/repo")⟩) =
    .ok "- Updated dependencies []:\n  - pkg-1@1.0.0" := by decide

/-! ## C3: a change record without a commit hash -/

/-- C3 counterexample: with perfectly valid options and a change record that
carries no commit hash, `getReleaseLine` still performs repository discovery
and fails with the repository-discovery error, refuting the claim that such a
call cannot fail with a repository-discovery error. -/
theorem getReleaseLine_discovery_error_cex :
    getReleaseLine (.error "could not find repository") false
      ⟨"changeset-1", "Fix a bug", [⟨"pkg", "patch"⟩], none⟩ "patch"
      (some ⟨some (.str "owner/repo")⟩) =
    (.error "Repository.discover failed: could not find repository", []) := by
  decide

/-- C3 (amended): a change record whose commit hash is absent (or falsy)
never triggers a commit lookup — the result does not depend on the
commit-lookup function at all — but repository discovery still runs
unconditionally, so with valid options the call does fail when discovery
fails. -/
theorem getReleaseLine_no_commit_no_lookup :
    (∀ (gha : Bool) (changeset : ChangeRecord) (ty : String)
        (options : Option RawOptions) (sh : Bool)
        (f g : String → Except String (Option Commit)),
        jsTruthyStr changeset.commit = false →
        getReleaseLine (.ok ⟨f, sh⟩) gha changeset ty options =
          getReleaseLine (.ok ⟨g, sh⟩) gha changeset ty options) ∧
    (∀ (e : String) (gha : Bool) (changeset : ChangeRecord) (ty : String)
        (options : Option RawOptions) (opts : ValidOptions),
        jsTruthyStr changeset.commit = false →
        validate options = .ok opts →
        getReleaseLine (.error e) gha changeset ty options =
          (.error ("Repository.discover failed: " ++ e), [])) := by
  constructor
  · intro gha changeset ty options sh f g h
    have hres : ∀ fc : String → Except String (Option Commit),
        resolveCommitMsg ⟨fc, sh⟩ changeset.commit = (none, []) := by
      intro fc
      cases hc : changeset.commit with
      | none => rfl
      | some s =>
        rw [hc] at h
        have hs : s = "" := by
          by_contra hs
          simp [jsTruthyStr, hs] at h
        subst hs
        rfl
    cases hv : validate options with
    | error e => simp only [getReleaseLine, hv]
    | ok opts =>
      simp only [getReleaseLine, hv, getRepository, hres]
  · intro e gha changeset ty options opts _ hv
    simp only [getReleaseLine, hv, getRepository]

/-- Witness for the amended C3: a concrete commit-less change record yields
the same output under two different commit-lookup functions. -/
theorem getReleaseLine_no_commit_no_lookup_witness :
    jsTruthyStr ((ChangeRecord.mk "changeset-1" "Fix a bug" [⟨"pkg", "patch"⟩] none).commit) = false ∧
    getReleaseLine (.ok ⟨fun _ => .error "boom", false⟩) false
      ⟨"changeset-1", "Fix a bug", [⟨"pkg", "patch"⟩], none⟩ "patch"
      (some ⟨some (.str "owner/repo")⟩) =
    getReleaseLine (.ok ⟨fun _ => .ok (some ⟨"Other fix (#9)"⟩), false⟩) false
      ⟨"changeset-1", "Fix a bug", [⟨"pkg", "patch"⟩], none⟩ "patch"
      (some ⟨some (.str "owner/repo")⟩) :=
  ⟨rfl, getReleaseLine_no_commit_no_lookup.1 false
    ⟨"changeset-1", "Fix a bug", [⟨"pkg", "patch"⟩], none⟩ "patch"
    (some ⟨some (.str "owner/repo")⟩) false
    (fun _ => .error "boom") (fun _ => .ok (some ⟨"Other fix (#9)"⟩)) rfl⟩

/-! ## C2: the shape of the release line -/

/-- C2: with valid options and successful repository discovery, the release
line is exactly `"\n- "`, the first line of the cleaned summary, the suffix,
a newline, and the remaining cleaned-summary lines each indented by two
spaces and joined by newlines with no trailing newline; when there are no
remaining lines the output still ends with the newline that follows the
opening line. -/
theorem getReleaseLine_format (disc : Except String Repo) (gha : Bool)
    (changeset : ChangeRecord) (ty : String) (options : Option RawOptions)
    (opts : ValidOptions) (repo : Repo)
    (hv : validate options = .ok opts) (hd : disc = .ok repo) :
    getReleaseLine disc gha changeset ty options =
      (.ok ("\n- " ++ (jsSplitNl (cleanSummary changeset.summary)).headD ""
        ++ getSuffix (getPrNumber (resolveCommitMsg repo changeset.commit).1)
             changeset.commit opts
        ++ "\n"
        ++ String.intercalate "\n"
             ((jsSplitNl (cleanSummary changeset.summary)).tail.map
               (fun l => "  " ++ l))),
       (getRepository disc gha).2 ++ (resolveCommitMsg repo changeset.commit).2) ∧
    ((jsSplitNl (cleanSummary changeset.summary)).tail = [] →
      (getReleaseLine disc gha changeset ty options).1 =
        .ok ("\n- " ++ (jsSplitNl (cleanSummary changeset.summary)).headD ""
          ++ getSuffix (getPrNumber (resolveCommitMsg repo changeset.commit).1)
               changeset.commit opts
          ++ "\n")) := by
  subst hd
  constructor
  · simp only [getReleaseLine, hv, getRepository]
  · intro ht
    simp only [getReleaseLine, hv, getRepository, ht, List.map_nil]
    show Except.ok (_ ++ String.intercalate "\n" []) = _
    rw [show String.intercalate "\n" [] = "" from rfl, String.append_empty]

/-- Witness for C2 at a concrete multi-line summary. -/
theorem getReleaseLine_format_witness :
    validate (some ⟨some (.str "owner/repo")⟩) = .ok ⟨"owner/repo"⟩ ∧
    (getReleaseLine (.ok ⟨fun _ => .ok none, false⟩) false
        ⟨"changeset-1", "Add new feature\nWith details", [⟨"pkg", "minor"⟩], none⟩
        "minor" (some ⟨some (.str "owner/repo")⟩) =
      (.ok ("\n- " ++ (jsSplitNl (cleanSummary "Add new feature\nWith details")).headD ""
        ++ getSuffix (getPrNumber (resolveCommitMsg ⟨fun _ => .ok none, false⟩ none).1)
             none ⟨"owner/repo"⟩
        ++ "\n"
        ++ String.intercalate "\n"
             ((jsSplitNl (cleanSummary "Add new feature\nWith details")).tail.map
               (fun l => "  " ++ l))),
       (getRepository (.ok ⟨fun _ => .ok none, false⟩) false).2 ++
         (resolveCommitMsg ⟨fun _ => .ok none, false⟩ none).2)) :=
  ⟨by decide,
   (getReleaseLine_format (.ok ⟨fun _ => .ok none, false⟩) false
     ⟨"changeset-1", "Add new feature\nWith details", [⟨"pkg", "minor"⟩], none⟩
     "minor" (some ⟨some (.str "owner/repo")⟩) ⟨"owner/repo"⟩
     ⟨fun _ => .ok none, false⟩ (by decide) rfl).1⟩

/-! ## C4: non-fatal commit-lookup failure -/

/-- C4: when the change record carries a (truthy) commit hash and the commit
lookup throws, `getReleaseLine` does not abort: it logs a warning carrying the
hash and the cause, treats the message as absent, and produces exactly the
same string as a successful lookup whose message contains no PR reference —
both fall back to the short-hash commit-link suffix. -/
theorem getReleaseLine_lookup_failure_degrades
    (gha : Bool) (changeset : ChangeRecord) (ty : String)
    (options : Option RawOptions) (opts : ValidOptions)
    (hash cause msg : String) (sh : Bool)
    (f g : String → Except String (Option Commit))
    (hv : validate options = .ok opts)
    (hc : changeset.commit = some hash) (hne : hash ≠ "")
    (hf : f hash = .error cause)
    (hg : g hash = .ok (some ⟨msg⟩)) (hmsg : msg ≠ "")
    (hnopr : getPrNumber (some (jsTrim (firstLineOf msg))) = none) :
    (getReleaseLine (.ok ⟨f, sh⟩) gha changeset ty options).1 =
      (getReleaseLine (.ok ⟨g, sh⟩) gha changeset ty options).1 ∧
    Warning.commitLookupFailed hash cause ∈
      (getReleaseLine (.ok ⟨f, sh⟩) gha changeset ty options).2 ∧
    (getReleaseLine (.ok ⟨f, sh⟩) gha changeset ty options).1 =
      .ok ("\n- " ++ (jsSplitNl (cleanSummary changeset.summary)).headD ""
        ++ (" ([`" ++ getShortSha hash ++ "`](" ++ getCommitUrl opts hash ++ "))")
        ++ "\n"
        ++ String.intercalate "\n"
             ((jsSplitNl (cleanSummary changeset.summary)).tail.map
               (fun l => "  " ++ l))) := by
  have hrf : resolveCommitMsg ⟨f, sh⟩ changeset.commit =
      (none, [Warning.commitLookupFailed hash cause]) := by
    rw [hc]
    simp only [resolveCommitMsg, if_neg hne, hf]
  have hrg : resolveCommitMsg ⟨g, sh⟩ changeset.commit =
      (some (jsTrim (firstLineOf msg)), []) := by
    rw [hc]
    simp only [resolveCommitMsg, if_neg hne, hg, if_neg hmsg]
  have hsfx : getSuffix none changeset.commit opts =
      " ([`" ++ getShortSha hash ++ "`](" ++ getCommitUrl opts hash ++ "))" := by
    rw [hc]
    simp [getSuffix, suffixSha, hne]
  refine ⟨?_, ?_, ?_⟩
  · simp only [getReleaseLine, hv, getRepository, hrf, hrg, hnopr]
    rfl
  · simp only [getReleaseLine, hv, getRepository, hrf]
    exact List.mem_append_right _ (List.mem_singleton.mpr rfl)
  · simp only [getReleaseLine, hv, getRepository, hrf]
    show Except.ok _ = _
    rw [show getPrNumber none = none from rfl, hsfx]

/-- Witness for C4, mirroring the repository's own `handles errors when
getting commit message` test. -/
theorem getReleaseLine_lookup_failure_degrades_witness :
    getPrNumber (some (jsTrim (firstLineOf "Fix a bug"))) = none ∧
    ((getReleaseLine (.ok ⟨fun _ => .error "Git error", false⟩) false
        ⟨"changeset-1", "Fix a bug", [⟨"pkg", "patch"⟩], some "abc1234567890"⟩
        "patch" (some ⟨some (.str "owner/repo")⟩)).1 =
      (getReleaseLine (.ok ⟨fun _ => .ok (some ⟨"Fix a bug"⟩), false⟩) false
        ⟨"changeset-1", "Fix a bug", [⟨"pkg", "patch"⟩], some "abc1234567890"⟩
        "patch" (some ⟨some (.str "owner/repo")⟩)).1 ∧
     Warning.commitLookupFailed "abc1234567890" "Git error" ∈
       (getReleaseLine (.ok ⟨fun _ => .error "Git error", false⟩) false
         ⟨"changeset-1", "Fix a bug", [⟨"pkg", "patch"⟩], some "abc1234567890"⟩
         "patch" (some ⟨some (.str "owner/repo")⟩)).2 ∧
     (getReleaseLine (.ok ⟨fun _ => .error "Git error", false⟩) false
        ⟨"changeset-1", "Fix a bug", [⟨"pkg", "patch"⟩], some "abc1234567890"⟩
        "patch" (some ⟨some (.str "owner/repo")⟩)).1 =
      .ok ("\n- " ++ (jsSplitNl (cleanSummary "Fix a bug")).headD ""
        ++ (" ([`" ++ getShortSha "abc1234567890" ++ "`](" ++ getCommitUrl ⟨"owner/repo"⟩ "abc1234567890" ++ "))")
        ++ "\n"
        ++ String.intercalate "\n"
             ((jsSplitNl (cleanSummary "Fix a bug")).tail.map (fun l => "  " ++ l)))) :=
  ⟨by decide,
   getReleaseLine_lookup_failure_degrades false
     ⟨"changeset-1", "Fix a bug", [⟨"pkg", "patch"⟩], some "abc1234567890"⟩
     "patch" (some ⟨some (.str "owner/repo")⟩) ⟨"owner/repo"⟩
     "abc1234567890" "Git error" "Fix a bug" false
     (fun _ => .error "Git error") (fun _ => .ok (some ⟨"Fix a bug"⟩))
     (by decide) rfl (by decide) rfl rfl (by decide) (by decide)⟩

/-! ## Fixed points of the three replacements -/

theorem mk_toList (s : String) : String.mk s.toList = s := rfl

theorem replFirst_eq_none_of_no_match
    {m : List Char → Option (List Char)} :
    ∀ {l : List Char} {b : Bool}, hasMatchLS m l b = false →
      replFirst m l b = none
  | [], b, h => by
    simp only [hasMatchLS, Bool.and_eq_false_iff] at h
    simp only [replFirst]
    rcases h with h | h
    · rw [h]
      rfl
    · cases b
      · rfl
      · simp only [if_true]
        cases hm : m [] with
        | none => rfl
        | some r => rw [hm] at h; simp at h
  | c :: cs, b, h => by
    simp only [hasMatchLS, Bool.or_eq_false_iff, Bool.and_eq_false_iff] at h
    obtain ⟨h1, h2⟩ := h
    have ih := replFirst_eq_none_of_no_match (l := cs) (b := (c = '\n')) h2
    simp only [replFirst, ih, Option.map_none']
    rcases h1 with h1 | h1
    · rw [h1]
      rfl
    · cases b
      · rfl
      · simp only [if_true]
        cases hm : m (c :: cs) with
        | none => rfl
        | some r => rw [hm] at h1; simp at h1

theorem replAllAux_eq_self_of_no_match
    {m : List Char → Option (List Char)} :
    ∀ (fuel : Nat) {l : List Char} {b : Bool}, hasMatchLS m l b = false →
      replAllAux m fuel l b = l
  | 0, _, _, _ => rfl
  | _ + 1, [], _, _ => rfl
  | fuel + 1, c :: cs, b, h => by
    simp only [hasMatchLS, Bool.or_eq_false_iff, Bool.and_eq_false_iff] at h
    obtain ⟨h1, h2⟩ := h
    have ih := replAllAux_eq_self_of_no_match fuel (l := cs) (b := (c = '\n')) h2
    simp only [replAllAux, ih]
    rcases h1 with h1 | h1
    · rw [h1]
      rfl
    · cases b
      · rfl
      · simp only [if_true]
        cases hm : m (c :: cs) with
        | none => rfl
        | some r => rw [hm] at h1; simp at h1

theorem dropWhile_eq_self_of_head {p : Char → Bool} {l : List Char}
    (h : ∀ c, l.head? = some c → p c = false) : l.dropWhile p = l := by
  cases l with
  | nil => rfl
  | cons c cs =>
    have := h c rfl
    rw [List.dropWhile_cons_of_neg]
    simp [this]

theorem getLast?_trimList_not_ws {l : List Char} {c : Char}
    (h : (trimList l).getLast? = some c) : isWs c = false := by
  unfold trimList at h
  rw [List.getLast?_reverse] at h
  exact head?_dropWhile_false h

theorem head?_trimList_not_ws {l : List Char} {c : Char}
    (h : (trimList l).head? = some c) : isWs c = false := by
  unfold trimList at h
  set y := l.dropWhile isWs with hy
  set r := y.reverse.dropWhile isWs with hr
  rw [List.head?_reverse] at h
  have hne : r ≠ [] := by
    intro h0
    rw [h0] at h
    simp at h
  have h2 : y.reverse.getLast? = r.getLast? := by
    conv_lhs => rw [← List.takeWhile_append_dropWhile isWs y.reverse]
    exact List.getLast?_append_of_ne_nil _ hne
  have h3 : y.reverse.getLast? = y.head? := List.getLast?_reverse y
  rw [← h2, h3] at h
  exact head?_dropWhile_false (p := isWs) (by rw [← hy]; exact h)

theorem trimList_idem (l : List Char) : trimList (trimList l) = trimList l := by
  have h1 : (trimList l).dropWhile isWs = trimList l :=
    dropWhile_eq_self_of_head (fun c hc => head?_trimList_not_ws hc)
  have h2 : (trimList l).reverse.dropWhile isWs = (trimList l).reverse := by
    apply dropWhile_eq_self_of_head
    intro c hc
    rw [List.head?_reverse] at hc
    exact getLast?_trimList_not_ws hc
  show ((((trimList l).dropWhile isWs).reverse).dropWhile isWs).reverse = trimList l
  rw [h1, h2, List.reverse_reverse]

theorem jsTrim_idem (s : String) : jsTrim (jsTrim s) = jsTrim s := by
  show String.mk (trimList (trimList s.toList)) = String.mk (trimList s.toList)
  rw [trimList_idem]

/-! ## C5: idempotence of cleanSummary -/

/-- C5 counterexample: `cleanSummary` removes only the first `pr:` pattern
occurrence, so on a summary with two `pr:` lines a second application removes
more, refuting idempotence. -/
theorem cleanSummary_not_idem_cex :
    cleanSummary (cleanSummary "pr: #1\npr: #2\nX") ≠
      cleanSummary "pr: #1\npr: #2\nX" := by decide

theorem cleanSummary_of_no_match (t : String)
    (h1 : hasPrPat t = false) (h2 : hasCommitPat t = false)
    (h3 : hasAuthorPat t = false) (ht : jsTrim t = t) :
    cleanSummary t = t := by
  unfold cleanSummary
  rw [show replaceFirstPat prMatch t = t from by
    unfold replaceFirstPat
    rw [replFirst_eq_none_of_no_match h1]]
  rw [show replaceFirstPat commitMatch t = t from by
    unfold replaceFirstPat
    rw [replFirst_eq_none_of_no_match h2]]
  rw [show replaceAllPat authorMatch t = t from by
    unfold replaceAllPat
    rw [replAllAux_eq_self_of_no_match _ h3]
    exact mk_toList t]
  exact ht

/-- Sufficiency half of the C5 theorem: when the cleaned output contains no
residual pattern, a second application of `cleanSummary` is the identity. -/
theorem cleanSummary_idem_of_clean (s : String)
    (h1 : hasPrPat (cleanSummary s) = false)
    (h2 : hasCommitPat (cleanSummary s) = false)
    (h3 : hasAuthorPat (cleanSummary s) = false) :
    cleanSummary (cleanSummary s) = cleanSummary s := by
  apply cleanSummary_of_no_match _ h1 h2 h3
  show jsTrim (cleanSummary s) = cleanSummary s
  unfold cleanSummary
  exact jsTrim_idem _

/-! ## C9: cleanSummary only deletes characters -/

theorem matchCI_suffix :
    ∀ {pat cs r : List Char}, matchCI pat cs = some r → r <:+ cs
  | [], cs, r, h => by
    simp only [matchCI, Option.some.injEq] at h
    exact h ▸ List.suffix_refl cs
  | p :: ps, c :: cs, r, h => by
    simp only [matchCI] at h
    by_cases hc : c.toLower = p
    · rw [if_pos hc] at h
      exact (matchCI_suffix h).trans (List.suffix_cons c cs)
    · rw [if_neg hc] at h
      exact absurd h (by simp)

theorem dropWhile_suffix_of {p : Char → Bool} {l : List Char} :
    l.dropWhile p <:+ l :=
  List.dropWhile_suffix p

theorem matchNonWs_suffix {cs r : List Char} (h : matchNonWs cs = some r) :
    r <:+ cs := by
  unfold matchNonWs at h
  split at h
  · split at h
    · exact absurd h (by simp)
    · simp only [Option.some.injEq] at h
      exact h ▸ dropWhile_suffix_of
  · exact absurd h (by simp)

theorem skipHash_suffix (l : List Char) : skipHash l <:+ l := by
  unfold skipHash
  split
  · exact List.suffix_cons '#' _
  · exact List.suffix_refl _

theorem digitsRun_suffix {cs r : List Char} (h : digitsRun cs = some r) :
    r <:+ cs := by
  unfold digitsRun at h
  split at h
  · split at h
    · simp only [Option.some.injEq] at h
      exact h ▸ dropWhile_suffix_of
    · exact absurd h (by simp)
  · exact absurd h (by simp)

theorem matchPrKeyword_suffix {cs r : List Char}
    (h : matchPrKeyword cs = some r) : r <:+ cs := by
  unfold matchPrKeyword at h
  split at h
  · rename_i r1 h1
    simp only [Option.some.injEq] at h
    exact h ▸ matchCI_suffix h1
  · rename_i h1
    split at h
    · rename_i r2 h2
      simp only [Option.some.injEq] at h
      exact h ▸ matchCI_suffix h2
    · rename_i h2
      split at h
      · rename_i r3 h3
        split at h
        · exact absurd h (by simp)
        · exact ((matchCI_suffix h).trans dropWhile_suffix_of).trans (matchCI_suffix h3)
      · exact absurd h (by simp)

theorem prMatch_suffix {cs r : List Char} (h : prMatch cs = some r) :
    r <:+ cs := by
  unfold prMatch at h
  split at h
  · exact absurd h (by simp)
  · rename_i r1 h1
    have hr1 : r1 <:+ cs := (matchPrKeyword_suffix h1).trans dropWhile_suffix_of
    exact (digitsRun_suffix h).trans
      ((skipHash_suffix _).trans (dropWhile_suffix_of.trans hr1))

theorem commitMatch_suffix {cs r : List Char} (h : commitMatch cs = some r) :
    r <:+ cs := by
  unfold commitMatch at h
  split at h
  · exact absurd h (by simp)
  · rename_i r1 h1
    have hr1 : r1 <:+ cs := (matchCI_suffix h1).trans dropWhile_suffix_of
    exact (matchNonWs_suffix h).trans (dropWhile_suffix_of.trans hr1)

theorem atToken_suffix {cs r : List Char} (h : atToken cs = some r) :
    r <:+ cs := by
  unfold atToken at h
  split at h
  · rename_i l
    split at h
    · rename_i rest h2
      simp only [Option.some.injEq] at h
      exact h ▸ (matchNonWs_suffix h2).trans (List.suffix_cons '@' l)
    · simp only [Option.some.injEq] at h
      exact h ▸ List.suffix_cons '@' l
  · exact matchNonWs_suffix h

theorem authorMatch_suffix {cs r : List Char} (h : authorMatch cs = some r) :
    r <:+ cs := by
  unfold authorMatch at h
  split at h
  · rename_i r1 h1
    exact (atToken_suffix h).trans
      (dropWhile_suffix_of.trans ((matchCI_suffix h1).trans dropWhile_suffix_of))
  · rename_i h1
    split at h
    · rename_i r1 h2
      exact (atToken_suffix h).trans
        (dropWhile_suffix_of.trans ((matchCI_suffix h2).trans dropWhile_suffix_of))
    · exact absurd h (by simp)

theorem replFirst_sublist {m : List Char → Option (List Char)}
    (hm : ∀ l r, m l = some r → r <:+ l) :
    ∀ {l : List Char} {b : Bool} {res : List Char},
      replFirst m l b = some res → res.Sublist l
  | [], b, res, h => by
    simp only [replFirst] at h
    cases b
    · exact absurd h (by simp)
    · simp only [if_true] at h
      exact ((hm [] res h).sublist)
  | c :: cs, b, res, h => by
    simp only [replFirst] at h
    have hstep : (replFirst m cs (c = '\n')).map (c :: ·) = some res →
        res.Sublist (c :: cs) := by
      intro hs
      cases hr : replFirst m cs (c = '\n') with
      | none => rw [hr] at hs; exact absurd hs (by simp)
      | some res' =>
        rw [hr] at hs
        simp only [Option.map_some', Option.some.injEq] at hs
        subst hs
        exact (replFirst_sublist hm hr).cons₂ c
    cases b
    · simp only [if_neg (by simp : ¬(false = true))] at h
      exact hstep h
    · simp only [if_true] at h
      cases hmm : m (c :: cs) with
      | some rest =>
        rw [hmm] at h
        simp only [Option.some.injEq] at h
        exact h ▸ (hm _ _ hmm).sublist
      | none =>
        rw [hmm] at h
        exact hstep h

theorem replAllAux_sublist {m : List Char → Option (List Char)}
    (hm : ∀ l r, m l = some r → r <:+ l) :
    ∀ (fuel : Nat) (l : List Char) (b : Bool),
      (replAllAux m fuel l b).Sublist l
  | 0, l, _ => List.Sublist.refl l
  | _ + 1, [], _ => List.Sublist.refl []
  | fuel + 1, c :: cs, b => by
    simp only [replAllAux]
    have hstep : (c :: replAllAux m fuel cs (c = '\n')).Sublist (c :: cs) :=
      (replAllAux_sublist hm fuel cs (c = '\n')).cons₂ c
    cases b
    · simpa using hstep
    · simp only [if_true]
      cases hmm : m (c :: cs) with
      | some rest =>
        exact (replAllAux_sublist hm fuel rest false).trans ((hm _ _ hmm).sublist)
      | none => exact hstep

theorem trimList_sublist (l : List Char) : (trimList l).Sublist l := by
  unfold trimList
  have h1 : (l.dropWhile isWs).Sublist l := (dropWhile_suffix_of).sublist
  have h2 : (((l.dropWhile isWs).reverse.dropWhile isWs).reverse).Sublist
      (l.dropWhile isWs) := by
    have hs : ((l.dropWhile isWs).reverse.dropWhile isWs) <:+
        (l.dropWhile isWs).reverse := dropWhile_suffix_of
    have hp := List.reverse_prefix.mpr hs
    rw [List.reverse_reverse] at hp
    exact hp.sublist
  exact h2.trans h1

theorem replaceFirstPat_sublist {m : List Char → Option (List Char)}
    (hm : ∀ l r, m l = some r → r <:+ l) (s : String) :
    (replaceFirstPat m s).toList.Sublist s.toList := by
  unfold replaceFirstPat
  cases hr : replFirst m s.toList true with
  | none => exact List.Sublist.refl _
  | some cs => exact replFirst_sublist hm hr

theorem replaceAllPat_sublist {m : List Char → Option (List Char)}
    (hm : ∀ l r, m l = some r → r <:+ l) (s : String) :
    (replaceAllPat m s).toList.Sublist s.toList :=
  replAllAux_sublist hm _ _ _

/-- C9 (amended): `cleanSummary` only deletes characters — its output is a
subsequence of its input, so every character of every other line and every
line break that survives does so unchanged and in order — and when the input
contains no `pr`/`pull`, `commit` or `author`/`user` prefix pattern at any
line start the result is exactly the trimmed input. -/
theorem cleanSummary_only_deletes (s : String) :
    (cleanSummary s).toList.Sublist s.toList ∧
    (hasPrPat s = false → hasCommitPat s = false → hasAuthorPat s = false →
      cleanSummary s = jsTrim s) := by
  constructor
  · show (jsTrim _).toList.Sublist s.toList
    have h0 : ∀ t : String, (jsTrim t).toList.Sublist t.toList := by
      intro t
      exact trimList_sublist t.toList
    refine (h0 _).trans ?_
    refine (replaceAllPat_sublist (fun l r h => authorMatch_suffix h) _).trans ?_
    refine (replaceFirstPat_sublist (fun l r h => commitMatch_suffix h) _).trans ?_
    exact replaceFirstPat_sublist (fun l r h => prMatch_suffix h) _
  · intro h1 h2 h3
    unfold cleanSummary
    rw [show replaceFirstPat prMatch s = s from by
      unfold replaceFirstPat
      rw [replFirst_eq_none_of_no_match h1]]
    rw [show replaceFirstPat commitMatch s = s from by
      unfold replaceFirstPat
      rw [replFirst_eq_none_of_no_match h2]]
    rw [show replaceAllPat authorMatch s = s from by
      unfold replaceAllPat
      rw [replAllAux_eq_self_of_no_match _ h3]
      exact mk_toList s]

/-- C9 counterexample: a `pr:` metadata pattern followed by further text on
the same line is not removed as a whole line — only the matched
`pr: #<digits>` prefix is deleted and the tail `" tail"` survives, so the
cleaned result is neither of the two possible "line removed" outputs. -/
theorem cleanSummary_partial_line_cex :
    cleanSummary "X\npr: #123 tail\nY" = "X\n tail\nY" ∧
    cleanSummary "X\npr: #123 tail\nY" ≠ "X\nY" ∧
    cleanSummary "X\npr: #123 tail\nY" ≠ "X\n\nY" := by
  refine ⟨by decide, by decide, by decide⟩

/-- Witness for the amended C9: a summary without any metadata pattern is
returned trimmed (and unchanged as a subsequence). -/
theorem cleanSummary_only_deletes_witness :
    hasPrPat "This is a plain summary" = false ∧
    cleanSummary "This is a plain summary" = jsTrim "This is a plain summary" :=
  ⟨by decide,
   (cleanSummary_only_deletes "This is a plain summary").2
     (by decide) (by decide) (by decide)⟩

/-! ## C8: characterization of validate -/

/-- Modelled from the claim's words: a `repo` string with "exactly one slash
separating two non-empty, whitespace-free segments" (the two segments are also
slash-free, which is what makes the slash unique). -/
def RepoFormatOK (s : String) : Prop :=
  ∃ a b : String, s = a ++ "/" ++ b ∧ a ≠ "" ∧ b ≠ "" ∧
    (∀ c ∈ a.toList, c ≠ '/' ∧ isWs c = false) ∧
    (∀ c ∈ b.toList, c ≠ '/' ∧ isWs c = false)

theorem segChar_iff (c : Char) : segChar c = true ↔ c ≠ '/' ∧ isWs c = false := by
  simp [segChar, Bool.and_eq_true, Bool.not_eq_true']

theorem orgRepoTest_iff (s : String) : orgRepoTest s = true ↔ RepoFormatOK s := by
  constructor
  · intro h
    unfold orgRepoTest at h
    rw [Bool.and_eq_true] at h
    obtain ⟨hA, hm⟩ := h
    split at hm
    · rename_i b heq
      rw [Bool.and_eq_true] at hm
      obtain ⟨hbne, hball⟩ := hm
      refine ⟨String.mk (s.toList.takeWhile segChar), String.mk b, ?_, ?_, ?_, ?_, ?_⟩
      · rw [String.ext_iff]
        show s.data = (String.mk (s.toList.takeWhile segChar) ++ "/" ++ String.mk b).data
        rw [String.data_append, String.data_append]
        show s.data = s.data.takeWhile segChar ++ ['/'] ++ b
        rw [List.append_assoc, List.singleton_append]
        conv_lhs => rw [← List.takeWhile_append_dropWhile segChar s.data]
        rw [show s.data.dropWhile segChar = '/' :: b from heq]
      · rw [Ne, String.ext_iff]
        show ¬(s.toList.takeWhile segChar = [])
        intro h0
        rw [h0] at hA
        simp at hA
      · rw [Ne, String.ext_iff]
        show ¬(b = [])
        intro h0
        rw [h0] at hbne
        simp at hbne
      · intro c hc
        exact (segChar_iff c).mp (mem_of_takeWhile hc)
      · intro c hc
        exact (segChar_iff c).mp (List.all_eq_true.mp hball c hc)
    · exact absurd hm (by simp)
  · rintro ⟨a, b, heq, ha, hb, hca, hcb⟩
    have hsa : ∀ c ∈ a.toList, segChar c = true := fun c hc =>
      (segChar_iff c).mpr (hca c hc)
    have hsb : ∀ c ∈ b.toList, segChar c = true := fun c hc =>
      (segChar_iff c).mpr (hcb c hc)
    have hslash : segChar '/' = false := by decide
    have hdata : s.toList = a.toList ++ '/' :: b.toList := by
      show s.data = _
      rw [show s = a ++ "/" ++ b from heq, String.data_append, String.data_append]
      show a.data ++ ['/'] ++ b.data = _
      rw [List.append_assoc, List.singleton_append]
      rfl
    have h1 : s.toList.takeWhile segChar = a.toList := by
      rw [hdata, takeWhile_append_all hsa, List.takeWhile_cons, hslash]
      simp
    have h2 : s.toList.dropWhile segChar = '/' :: b.toList := by
      rw [hdata, dropWhile_append_all hsa, List.dropWhile_cons_of_neg (by simp [hslash])]
    have hAne : a.toList.isEmpty = false := by
      cases hal : a.toList with
      | nil => exact absurd (by rw [String.ext_iff]; exact hal) ha
      | cons _ _ => rfl
    have hBne : b.toList.isEmpty = false := by
      cases hbl : b.toList with
      | nil => exact absurd (by rw [String.ext_iff]; exact hbl) hb
      | cons _ _ => rfl
    unfold orgRepoTest
    rw [Bool.and_eq_true]
    refine ⟨by rw [h1, hAne]; rfl, ?_⟩
    rw [h2]
    show (!b.toList.isEmpty && b.toList.all segChar) = true
    rw [Bool.and_eq_true, hBne]
    exact ⟨rfl, List.all_eq_true.mpr hsb⟩

theorem RepoFormatOK_ne_empty {u : String} (h : RepoFormatOK u) : u ≠ "" := by
  intro h0
  subst h0
  exact absurd ((orgRepoTest_iff "").mpr h) (by decide)

/-- C8: full characterization of `validate`.  It fails with the missing-repo
error exactly when the options value is absent or its `repo` field is absent
or falsy ("lacks a non-empty repo field" — with JavaScript truthiness, so the
empty string, `0`, `false` and `null` are also "empty"); it fails with the
invalid-format error exactly when a truthy `repo` is present that is either
not a string or a string not matching "exactly one slash separating two
non-empty, whitespace-free segments" (the two error conditions are read
sequentially, as in the source: missing-repo takes precedence); in every
remaining case it succeeds, narrowing to the validated options. -/
theorem validate_characterization (o : Option RawOptions) :
    (validate o = .error missingRepoMsg ↔
      (o = none ∨ ∃ r, o = some r ∧
        (r.repo = none ∨ ∃ v, r.repo = some v ∧ jsTruthy v = false))) ∧
    (validate o = .error invalidRepoFormatMsg ↔
      (∃ r v, o = some r ∧ r.repo = some v ∧ jsTruthy v = true ∧
        ((∀ u, v ≠ .str u) ∨ ∃ u, v = .str u ∧ ¬ RepoFormatOK u))) ∧
    (∀ r u, o = some r → r.repo = some (.str u) → RepoFormatOK u →
      validate o = .ok ⟨u⟩) ∧
    ((∃ vo, validate o = .ok vo) ↔
      ∃ r u, o = some r ∧ r.repo = some (.str u) ∧ RepoFormatOK u) := by
  have hmsg : missingRepoMsg ≠ invalidRepoFormatMsg := by decide
  cases o with
  | none =>
    refine ⟨⟨fun _ => Or.inl rfl, fun _ => rfl⟩, ?_, ?_, ?_⟩
    · constructor
      · intro h
        injection h with h
        exact absurd h hmsg
      · rintro ⟨r, v, hr, _⟩
        exact absurd hr (by simp)
    · intro r u hr
      exact absurd hr (by simp)
    · constructor
      · rintro ⟨vo, hvo⟩
        exact Except.noConfusion hvo
      · rintro ⟨r, u, hr, _⟩
        exact absurd hr (by simp)
  | some r0 =>
    have hinj : ∀ {r : RawOptions}, (some r0 : Option RawOptions) = some r → r = r0 := by
      intro r h
      injection h with h
      exact h.symm
    cases hr0 : r0.repo with
    | none =>
      have hval : validate (some r0) = .error missingRepoMsg := by
        simp [validate, hr0]
      refine ⟨?_, ?_, ?_, ?_⟩
      · rw [hval]
        exact ⟨fun _ => Or.inr ⟨r0, rfl, Or.inl hr0⟩, fun _ => rfl⟩
      · rw [hval]
        constructor
        · intro h
          injection h with h
          exact absurd h hmsg
        · rintro ⟨r, v, hr, hv, _⟩
          rw [hinj hr, hr0] at hv
          exact absurd hv (by simp)
      · intro r u hr hu
        rw [hinj hr, hr0] at hu
        exact absurd hu (by simp)
      · constructor
        · rintro ⟨vo, hvo⟩
          rw [hval] at hvo
          exact Except.noConfusion hvo
        · rintro ⟨r, u, hr, hu, _⟩
          rw [hinj hr, hr0] at hu
          exact absurd hu (by simp)
    | some v =>
      by_cases htv : jsTruthy v = true
      · -- truthy repo value
        cases v with
        | str u =>
          have hu0 : u ≠ "" := by
            intro h0
            rw [h0] at htv
            simp [jsTruthy] at htv
          by_cases hfmt : orgRepoTest u = true
          · -- success case
            have hfok : RepoFormatOK u := (orgRepoTest_iff u).mp hfmt
            have hval : validate (some r0) = .ok ⟨u⟩ := by
              simp [validate, hr0, jsTruthy, hu0, hfmt]
            refine ⟨?_, ?_, ?_, ?_⟩
            · rw [hval]
              constructor
              · intro h
                exact Except.noConfusion h
              · rintro (h | ⟨r, hr, h⟩)
                · exact absurd h (by simp)
                · rw [hinj hr, hr0] at h
                  rcases h with h | ⟨v', hv, htv'⟩
                  · exact absurd h (by simp)
                  · injection hv with hv
                    rw [← hv] at htv'
                    rw [htv] at htv'
                    exact Bool.noConfusion htv'
            · rw [hval]
              constructor
              · intro h
                exact Except.noConfusion h
              · rintro ⟨r, v', hr, hv, _, hbad⟩
                rw [hinj hr, hr0] at hv
                injection hv with hv
                subst hv
                rcases hbad with hbad | ⟨u', hu', hnf⟩
                · exact (hbad u rfl).elim
                · injection hu' with hu'
                  subst hu'
                  exact (hnf hfok).elim
            · intro r u' hr hu _
              rw [hinj hr, hr0] at hu
              injection hu with hu
              injection hu with hu
              rw [← hu]
              exact hval
            · exact ⟨fun _ => ⟨r0, u, rfl, hr0, hfok⟩, fun _ => ⟨⟨u⟩, hval⟩⟩
          · -- invalid format
            have hnfok : ¬ RepoFormatOK u := fun hf => hfmt ((orgRepoTest_iff u).mpr hf)
            have hval : validate (some r0) = .error invalidRepoFormatMsg := by
              simp [validate, hr0, jsTruthy, hu0, hfmt]
            refine ⟨?_, ?_, ?_, ?_⟩
            · rw [hval]
              constructor
              · intro h
                injection h with h
                exact absurd h.symm hmsg
              · rintro (h | ⟨r, hr, h⟩)
                · exact absurd h (by simp)
                · rw [hinj hr, hr0] at h
                  rcases h with h | ⟨v', hv, htv'⟩
                  · exact absurd h (by simp)
                  · injection hv with hv
                    rw [← hv, htv] at htv'
                    exact Bool.noConfusion htv'
            · rw [hval]
              exact ⟨fun _ => ⟨r0, .str u, rfl, hr0, htv, Or.inr ⟨u, rfl, hnfok⟩⟩,
                fun _ => rfl⟩
            · intro r u' hr hu hfok
              rw [hinj hr, hr0] at hu
              injection hu with hu
              injection hu with hu
              rw [← hu] at hfok
              exact absurd hfok hnfok
            · constructor
              · rintro ⟨vo, hvo⟩
                rw [hval] at hvo
                exact Except.noConfusion hvo
              · rintro ⟨r, u', hr, hu, hfok⟩
                rw [hinj hr, hr0] at hu
                injection hu with hu
                injection hu with hu
                rw [← hu] at hfok
                exact absurd hfok hnfok
        | num n =>
          have hn : n ≠ 0 := by
            intro h0
            rw [h0] at htv
            simp [jsTruthy] at htv
          have hval : validate (some r0) = .error invalidRepoFormatMsg := by
            simp [validate, hr0, jsTruthy, hn]
          refine ⟨?_, ?_, ?_, ?_⟩
          · rw [hval]
            constructor
            · intro h
              injection h with h
              exact absurd h.symm hmsg
            · rintro (h | ⟨r, hr, h⟩)
              · exact absurd h (by simp)
              · rw [hinj hr, hr0] at h
                rcases h with h | ⟨v', hv, htv'⟩
                · exact absurd h (by simp)
                · injection hv with hv
                  rw [← hv, htv] at htv'
                  exact Bool.noConfusion htv'
          · rw [hval]
            exact ⟨fun _ => ⟨r0, .num n, rfl, hr0, htv, Or.inl (by intro u h; exact JSValue.noConfusion h)⟩,
              fun _ => rfl⟩
          · intro r u' hr hu
            rw [hinj hr, hr0] at hu
            injection hu with hu
            exact absurd hu (by intro h; exact JSValue.noConfusion h)
          · constructor
            · rintro ⟨vo, hvo⟩
              rw [hval] at hvo
              exact Except.noConfusion hvo
            · rintro ⟨r, u', hr, hu, _⟩
              rw [hinj hr, hr0] at hu
              injection hu with hu
              exact absurd hu (by intro h; exact JSValue.noConfusion h)
        | bool b =>
          have hb : b = true := by
            cases b
            · simp [jsTruthy] at htv
            · rfl
          subst hb
          have hval : validate (some r0) = .error invalidRepoFormatMsg := by
            simp [validate, hr0, jsTruthy]
          refine ⟨?_, ?_, ?_, ?_⟩
          · rw [hval]
            constructor
            · intro h
              injection h with h
              exact absurd h.symm hmsg
            · rintro (h | ⟨r, hr, h⟩)
              · exact absurd h (by simp)
              · rw [hinj hr, hr0] at h
                rcases h with h | ⟨v', hv, htv'⟩
                · exact absurd h (by simp)
                · injection hv with hv
                  rw [← hv, htv] at htv'
                  exact Bool.noConfusion htv'
          · rw [hval]
            exact ⟨fun _ => ⟨r0, .bool true, rfl, hr0, htv, Or.inl (by intro u h; exact JSValue.noConfusion h)⟩,
              fun _ => rfl⟩
          · intro r u' hr hu
            rw [hinj hr, hr0] at hu
            injection hu with hu
            exact absurd hu (by intro h; exact JSValue.noConfusion h)
          · constructor
            · rintro ⟨vo, hvo⟩
              rw [hval] at hvo
              exact Except.noConfusion hvo
            · rintro ⟨r, u', hr, hu, _⟩
              rw [hinj hr, hr0] at hu
              injection hu with hu
              exact absurd hu (by intro h; exact JSValue.noConfusion h)
        | null =>
          simp [jsTruthy] at htv
      · -- falsy repo value: missing-repo error
        have htv' : jsTruthy v = false := by
          cases hx : jsTruthy v
          · rfl
          · exact absurd hx htv
        have hval : validate (some r0) = .error missingRepoMsg := by
          simp [validate, hr0, htv']
        refine ⟨?_, ?_, ?_, ?_⟩
        · rw [hval]
          exact ⟨fun _ => Or.inr ⟨r0, rfl, Or.inr ⟨v, hr0, htv'⟩⟩, fun _ => rfl⟩
        · rw [hval]
          constructor
          · intro h
            injection h with h
            exact absurd h hmsg
          · rintro ⟨r, v', hr, hv, htv2, _⟩
            rw [hinj hr, hr0] at hv
            injection hv with hv
            rw [← hv, htv'] at htv2
            exact Bool.noConfusion htv2
        · intro r u' hr hu hfok
          rw [hinj hr, hr0] at hu
          injection hu with hu
          rw [hu] at htv'
          simp only [jsTruthy] at htv'
          rw [decide_eq_false_iff_not, Decidable.not_not] at htv'
          exact absurd htv' (RepoFormatOK_ne_empty hfok)
        · constructor
          · rintro ⟨vo, hvo⟩
            rw [hval] at hvo
            exact Except.noConfusion hvo
          · rintro ⟨r, u', hr, hu, hfok⟩
            rw [hinj hr, hr0] at hu
            injection hu with hu
            rw [hu] at htv'
            simp only [jsTruthy] at htv'
            rw [decide_eq_false_iff_not, Decidable.not_not] at htv'
            exact absurd htv' (RepoFormatOK_ne_empty hfok)

/-! ## C6: getPrNumber reads exactly the trailing reference -/

theorem getLast?_cons_ne_nil {α : Type} (x : α) {l : List α} (h : l ≠ []) :
    (x :: l).getLast? = l.getLast? :=
  List.getLast?_append_of_ne_nil [x] h

theorem getLast?_exists_of_ne_nil {α : Type} :
    ∀ {l : List α}, l ≠ [] → ∃ a, l.getLast? = some a
  | [], h => absurd rfl h
  | [x], _ => ⟨x, rfl⟩
  | x :: y :: l, _ => by
    obtain ⟨a, ha⟩ := getLast?_exists_of_ne_nil (l := y :: l) (by simp)
    exact ⟨a, by rw [List.getLast?_cons_cons]; exact ha⟩

theorem takeWhile_all_self {p : Char → Bool} {l : List Char}
    (h : ∀ c ∈ l, p c = true) : l.takeWhile p = l := by
  simpa using takeWhile_append_all (r := ([] : List Char)) h

theorem dropWhile_all_self {p : Char → Bool} {l : List Char}
    (h : ∀ c ∈ l, p c = true) : l.dropWhile p = [] := by
  simpa using dropWhile_append_all (r := ([] : List Char)) h

theorem alt1At_some {cs ds : List Char} (h : alt1At cs = some ds) :
    cs = '(' :: '#' :: (ds ++ [')']) ∧ ds ≠ [] ∧ ds.all isDigitCh = true := by
  unfold alt1At at h
  split at h
  · rename_i r
    split at h
    · exact absurd h (by simp)
    · rename_i hne
      split at h
      · rename_i hdrop
        simp only [Option.some.injEq] at h
        subst h
        refine ⟨?_, ?_, ?_⟩
        · have : r = r.takeWhile isDigitCh ++ [')'] := by
            conv_lhs => rw [← List.takeWhile_append_dropWhile isDigitCh r]
            rw [hdrop]
          rw [← this]
        · intro h0
          rw [h0] at hne
          exact hne rfl
        · exact List.all_eq_true.mpr (fun c hc => mem_of_takeWhile hc)
      · exact absurd h (by simp)
  · exact absurd h (by simp)

theorem alt2At_some {cs ds : List Char} (h : alt2At cs = some ds) :
    ∃ w, cs = '#' :: (ds ++ w) ∧ w.all isWs = true ∧ ds ≠ [] ∧
      ds.all isDigitCh = true := by
  unfold alt2At at h
  split at h
  · rename_i r
    split at h
    · exact absurd h (by simp)
    · rename_i hne
      split at h
      · rename_i hws
        simp only [Option.some.injEq] at h
        subst h
        refine ⟨r.dropWhile isDigitCh, ?_, hws, ?_, ?_⟩
        · rw [List.takeWhile_append_dropWhile]
        · intro h0
          rw [h0] at hne
          exact hne rfl
        · exact List.all_eq_true.mpr (fun c hc => mem_of_takeWhile hc)
      · exact absurd h (by simp)
  · exact absurd h (by simp)

theorem alt1At_eval (ds : List Char) (hne : ds ≠ [])
    (hd : ds.all isDigitCh = true) :
    alt1At ('(' :: '#' :: (ds ++ [')'])) = some ds := by
  have hall : ∀ c ∈ ds, isDigitCh c = true := List.all_eq_true.mp hd
  have ht : (ds ++ [')']).takeWhile isDigitCh = ds := by
    rw [takeWhile_append_all hall, List.takeWhile_cons,
      show isDigitCh ')' = false from by decide]
    simp
  have hdr : (ds ++ [')']).dropWhile isDigitCh = [')'] := by
    rw [dropWhile_append_all hall, List.dropWhile_cons_of_neg (by decide)]
  show (if ((ds ++ [')']).takeWhile isDigitCh).isEmpty then none
    else match (ds ++ [')']).dropWhile isDigitCh with
      | [')'] => some ((ds ++ [')']).takeWhile isDigitCh)
      | _ => none) = some ds
  rw [ht, hdr]
  rw [if_neg (by simp [List.isEmpty_iff, hne])]
  rfl

theorem alt2At_eval (ds : List Char) (hne : ds ≠ [])
    (hd : ds.all isDigitCh = true) :
    alt2At ('#' :: ds) = some ds := by
  have hall : ∀ c ∈ ds, isDigitCh c = true := List.all_eq_true.mp hd
  show (if (ds.takeWhile isDigitCh).isEmpty then none
    else if (ds.dropWhile isDigitCh).all isWs then some (ds.takeWhile isDigitCh)
    else none) = some ds
  rw [takeWhile_all_self hall, dropWhile_all_self hall]
  rw [if_neg (by simp [List.isEmpty_iff, hne])]
  rfl

theorem alt1At_ne_lparen {c : Char} {l : List Char} (h : c ≠ '(') :
    alt1At (c :: l) = none := by
  unfold alt1At
  split
  · rename_i r heq
    injection heq with h1 _
    exact absurd h1 h
  · rfl

theorem alt2At_ne_hash {c : Char} {l : List Char} (h : c ≠ '#') :
    alt2At (c :: l) = none := by
  unfold alt2At
  split
  · rename_i r heq
    injection heq with h1 _
    exact absurd h1 h
  · rfl

theorem alt2At_none_of_rparen_mem {cs : List Char} (hmem : ')' ∈ cs) :
    alt2At cs = none := by
  cases halt : alt2At cs with
  | none => rfl
  | some es =>
    obtain ⟨w, heq, hw, _, hed⟩ := alt2At_some halt
    rw [heq] at hmem
    rcases List.mem_cons.mp hmem with h | h
    · exact absurd h (by decide)
    · rcases List.mem_append.mp h with h | h
      · exact absurd (List.all_eq_true.mp hed ')' h) (by decide)
      · exact absurd (List.all_eq_true.mp hw ')' h) (by decide)

theorem alt2At_none_of_hash_tail {c : Char} {rest : List Char}
    (hmem : '#' ∈ rest) : alt2At (c :: rest) = none := by
  cases halt : alt2At (c :: rest) with
  | none => rfl
  | some es =>
    obtain ⟨w, heq, hw, _, hed⟩ := alt2At_some halt
    injection heq with h1 h2
    rw [h2] at hmem
    rcases List.mem_append.mp hmem with h | h
    · exact absurd (List.all_eq_true.mp hed '#' h) (by decide)
    · exact absurd (List.all_eq_true.mp hw '#' h) (by decide)

theorem findPrRef_append_paren :
    ∀ (a : List Char) {ds : List Char}, ds ≠ [] → ds.all isDigitCh = true →
      findPrRef (a ++ '(' :: '#' :: (ds ++ [')'])) = some ds
  | [], ds, hne, hd => by
    simp only [List.nil_append, findPrRef]
    rw [alt1At_eval ds hne hd]
  | c :: a', ds, hne, hd => by
    have ih := findPrRef_append_paren a' hne hd
    have h1 : alt1At (c :: (a' ++ '(' :: '#' :: (ds ++ [')']))) = none := by
      cases halt : alt1At (c :: (a' ++ '(' :: '#' :: (ds ++ [')']))) with
      | none => rfl
      | some es =>
        obtain ⟨heq, _, hed⟩ := alt1At_some halt
        injection heq with hc hrest
        have hrest' : (a' ++ '(' :: '#' :: ds) ++ [')'] = ('#' :: es) ++ [')'] := by
          have e1 : a' ++ '(' :: '#' :: (ds ++ [')']) = (a' ++ '(' :: '#' :: ds) ++ [')'] := by
            simp
          have e2 : '#' :: (es ++ [')']) = ('#' :: es) ++ [')'] := by simp
          rw [← e1, ← e2]
          exact hrest
        have hcancel := List.append_cancel_right hrest'
        have hmem : '(' ∈ a' ++ '(' :: '#' :: ds :=
          List.mem_append_right a' (List.mem_cons_self '(' _)
        rw [hcancel] at hmem
        rcases List.mem_cons.mp hmem with h | h
        · exact absurd h (by decide)
        · exact absurd (List.all_eq_true.mp hed '(' h) (by decide)
    have h2 : alt2At (c :: (a' ++ '(' :: '#' :: (ds ++ [')']))) = none :=
      alt2At_none_of_rparen_mem (by simp)
    rw [show (c :: a') ++ '(' :: '#' :: (ds ++ [')']) =
      c :: (a' ++ '(' :: '#' :: (ds ++ [')'])) from rfl]
    simp only [findPrRef, h1, h2]
    exact ih

theorem findPrRef_append_bare :
    ∀ (a : List Char) {ds : List Char}, ds ≠ [] → ds.all isDigitCh = true →
      findPrRef (a ++ '#' :: ds) = some ds
  | [], ds, hne, hd => by
    simp only [List.nil_append, findPrRef]
    rw [alt1At_ne_lparen (by decide), alt2At_eval ds hne hd]
  | c :: a', ds, hne, hd => by
    have ih := findPrRef_append_bare a' hne hd
    obtain ⟨d, hdlast⟩ := getLast?_exists_of_ne_nil hne
    have hddig : isDigitCh d = true :=
      List.all_eq_true.mp hd d (mem_of_getLast?_eq hdlast)
    have h1 : alt1At (c :: (a' ++ '#' :: ds)) = none := by
      cases halt : alt1At (c :: (a' ++ '#' :: ds)) with
      | none => rfl
      | some es =>
        obtain ⟨heq, _, _⟩ := alt1At_some halt
        have hl1 : (c :: (a' ++ '#' :: ds)).getLast? = some d := by
          rw [getLast?_cons_ne_nil _ (by simp)]
          rw [List.getLast?_append_of_ne_nil a' (by simp)]
          rw [getLast?_cons_ne_nil _ hne]
          exact hdlast
        have hl2 : (c :: (a' ++ '#' :: ds)).getLast? = some ')' := by
          rw [heq]
          show (('(' :: '#' :: es) ++ [')']).getLast? = some ')'
          exact List.getLast?_concat _
        rw [hl1] at hl2
        injection hl2 with hl2
        rw [hl2] at hddig
        exact absurd hddig (by decide)
    have h2 : alt2At (c :: (a' ++ '#' :: ds)) = none :=
      alt2At_none_of_hash_tail (List.mem_append_right a' (List.mem_cons_self '#' ds))
    rw [show (c :: a') ++ '#' :: ds = c :: (a' ++ '#' :: ds) from rfl]
    simp only [findPrRef, h1, h2]
    exact ih

theorem findPrRef_some :
    ∀ {l ds : List Char}, findPrRef l = some ds →
      ((∃ a, l = a ++ '(' :: '#' :: (ds ++ [')'])) ∨
        (∃ a w, l = a ++ '#' :: (ds ++ w) ∧ w.all isWs = true)) ∧
      ds ≠ [] ∧ ds.all isDigitCh = true
  | [], ds, h => by
    simp only [findPrRef] at h
    exact Option.noConfusion h
  | c :: cs, ds, h => by
    simp only [findPrRef] at h
    cases h1 : alt1At (c :: cs) with
    | some es =>
      rw [h1] at h
      simp only [Option.some.injEq] at h
      subst h
      obtain ⟨heq, hne, hd⟩ := alt1At_some h1
      exact ⟨Or.inl ⟨[], heq⟩, hne, hd⟩
    | none =>
      rw [h1] at h
      cases h2 : alt2At (c :: cs) with
      | some es =>
        rw [h2] at h
        simp only [Option.some.injEq] at h
        subst h
        obtain ⟨w, heq, hw, hne, hd⟩ := alt2At_some h2
        refine ⟨Or.inr ⟨[], w, ?_, hw⟩, hne, hd⟩
        rw [heq]
        rfl
      | none =>
        rw [h2] at h
        obtain ⟨hdec, hne, hd⟩ := findPrRef_some (l := cs) h
        refine ⟨?_, hne, hd⟩
        rcases hdec with ⟨a, ha⟩ | ⟨a, w, ha, hw⟩
        · exact Or.inl ⟨c :: a, by rw [ha]; rfl⟩
        · exact Or.inr ⟨c :: a, w, by rw [ha]; rfl, hw⟩

/-- The `(#digits)`-at-end form of the claim, read on the reversed line after
an initial `)`. -/
def trailingParenRef (r1 : List Char) : Option (List Char) :=
  if (r1.takeWhile isDigitCh).isEmpty then none
  else
    match r1.dropWhile isDigitCh with
    | '#' :: '(' :: _ => some (r1.takeWhile isDigitCh).reverse
    | _ => none

/-- The bare `#digits`-at-end form of the claim, read on the reversed line. -/
def trailingBareRef (r : List Char) : Option (List Char) :=
  if (r.takeWhile isDigitCh).isEmpty then none
  else
    match r.dropWhile isDigitCh with
    | '#' :: _ => some (r.takeWhile isDigitCh).reverse
    | _ => none

/-- Modelled from the claim's words: the digit run of the trailing PR
reference of a trimmed line — either "a run of digits enclosed in parentheses
preceded by `#`, anchored at end of line" or "a bare `#` followed by digits
anchored at end of line" (the permitted trailing whitespace has already been
trimmed away).  Reading the line from its end makes "only the last reference
is honored" definitional. -/
def trailingRef (t : List Char) : Option (List Char) :=
  match t.reverse with
  | ')' :: r1 => trailingParenRef r1
  | r => trailingBareRef r

/-- `getPrNumber` as the claim describes it: absent input (and the falsy
empty string) yields absent; otherwise the trimmed first line's trailing
reference is parsed. -/
def getPrNumberSpec (commitMessage : Option String) : Option Nat :=
  match commitMessage with
  | none => none
  | some msg =>
    if msg = "" then none
    else
      match trailingRef (jsTrim (firstLineOf msg)).toList with
      | none => none
      | some ds => some (digitsToNat ds)

theorem trailingRef_paren (a : List Char) {ds : List Char} (hne : ds ≠ [])
    (hd : ds.all isDigitCh = true) :
    trailingRef (a ++ '(' :: '#' :: (ds ++ [')'])) = some ds := by
  have hrev : (a ++ '(' :: '#' :: (ds ++ [')'])).reverse =
      ')' :: (ds.reverse ++ '#' :: '(' :: a.reverse) := by
    simp
  have hall : ∀ c ∈ ds.reverse, isDigitCh c = true := fun c hc =>
    List.all_eq_true.mp hd c (List.mem_reverse.mp hc)
  unfold trailingRef
  rw [hrev]
  show trailingParenRef (ds.reverse ++ '#' :: '(' :: a.reverse) = some ds
  unfold trailingParenRef
  rw [takeWhile_append_all hall, dropWhile_append_all hall,
    List.takeWhile_cons, show isDigitCh '#' = false from by decide]
  simp only [Bool.false_eq_true, if_false, List.append_nil]
  rw [List.dropWhile_cons_of_neg (by decide)]
  rw [if_neg (by simp [List.isEmpty_iff, hne])]
  simp

theorem trailingRef_bare (a : List Char) {ds : List Char} (hne : ds ≠ [])
    (hd : ds.all isDigitCh = true) :
    trailingRef (a ++ '#' :: ds) = some ds := by
  have hrev : (a ++ '#' :: ds).reverse = ds.reverse ++ '#' :: a.reverse := by
    simp
  have hall : ∀ c ∈ ds.reverse, isDigitCh c = true := fun c hc =>
    List.all_eq_true.mp hd c (List.mem_reverse.mp hc)
  have hbare : trailingBareRef (ds.reverse ++ '#' :: a.reverse) = some ds := by
    unfold trailingBareRef
    rw [takeWhile_append_all hall, dropWhile_append_all hall,
      List.takeWhile_cons, show isDigitCh '#' = false from by decide]
    simp only [Bool.false_eq_true, if_false, List.append_nil]
    rw [List.dropWhile_cons_of_neg (by decide)]
    rw [if_neg (by simp [List.isEmpty_iff, hne])]
    simp
  unfold trailingRef
  split
  · rename_i r1 heq
    rw [hrev] at heq
    have : ')' ∈ ds.reverse ++ '#' :: a.reverse := by
      rw [heq]
      exact List.mem_cons_self ')' r1
    rcases List.mem_append.mp this with h | h
    · exact absurd (List.all_eq_true.mp (List.all_eq_true.mpr hall) ')' h) (by decide)
    · rcases List.mem_cons.mp h with h | h
      · exact absurd h (by decide)
      · -- ')' ∈ a.reverse is no contradiction; but heq forces head ')' = digit
        exfalso
        cases hds : ds.reverse with
        | nil => exact hne (by simpa using congrArg List.reverse hds)
        | cons d rest =>
          rw [hds] at heq
          injection heq with h1 _
          have : isDigitCh d = true := hall d (by rw [hds]; exact List.mem_cons_self d rest)
          rw [h1] at this
          exact absurd this (by decide)
  · rename_i hnp
    rw [hrev]
    exact hbare

theorem trailingParenRef_some {r1 ds : List Char}
    (h : trailingParenRef r1 = some ds) :
    ∃ rest, r1 = ds.reverse ++ '#' :: '(' :: rest ∧ ds ≠ [] ∧
      ds.all isDigitCh = true := by
  unfold trailingParenRef at h
  split at h
  · exact absurd h (by simp)
  · rename_i hne
    split at h
    · rename_i rest heq
      simp only [Option.some.injEq] at h
      have htk : r1.takeWhile isDigitCh = ds.reverse := by
        rw [← h, List.reverse_reverse]
      refine ⟨rest, ?_, ?_, ?_⟩
      · conv_lhs => rw [← List.takeWhile_append_dropWhile isDigitCh r1]
        rw [htk, heq]
      · intro h0
        rw [h0] at h
        rw [List.reverse_eq_nil_iff] at h
        exact hne (by rw [h]; rfl)
      · refine List.all_eq_true.mpr (fun c hc => ?_)
        rw [← h] at hc
        exact mem_of_takeWhile (List.mem_reverse.mp hc)
    · exact absurd h (by simp)

theorem trailingBareRef_some {r ds : List Char}
    (h : trailingBareRef r = some ds) :
    ∃ rest, r = ds.reverse ++ '#' :: rest ∧ ds ≠ [] ∧
      ds.all isDigitCh = true := by
  unfold trailingBareRef at h
  split at h
  · exact absurd h (by simp)
  · rename_i hne
    split at h
    · rename_i rest heq
      simp only [Option.some.injEq] at h
      have htk : r.takeWhile isDigitCh = ds.reverse := by
        rw [← h, List.reverse_reverse]
      refine ⟨rest, ?_, ?_, ?_⟩
      · conv_lhs => rw [← List.takeWhile_append_dropWhile isDigitCh r]
        rw [htk, heq]
      · intro h0
        rw [h0] at h
        rw [List.reverse_eq_nil_iff] at h
        exact hne (by rw [h]; rfl)
      · refine List.all_eq_true.mpr (fun c hc => ?_)
        rw [← h] at hc
        exact mem_of_takeWhile (List.mem_reverse.mp hc)
    · exact absurd h (by simp)

theorem trailingRef_some {t ds : List Char} (h : trailingRef t = some ds) :
    ((∃ a, t = a ++ '(' :: '#' :: (ds ++ [')'])) ∨ (∃ a, t = a ++ '#' :: ds)) ∧
      ds ≠ [] ∧ ds.all isDigitCh = true := by
  unfold trailingRef at h
  split at h
  · rename_i r1 heqrev
    obtain ⟨rest, hr1, hne, hd⟩ := trailingParenRef_some h
    refine ⟨Or.inl ⟨rest.reverse, ?_⟩, hne, hd⟩
    have ht : t = (')' :: (ds.reverse ++ '#' :: '(' :: rest)).reverse := by
      rw [← hr1, ← heqrev, List.reverse_reverse]
    rw [ht]
    simp
  · obtain ⟨rest, hr, hne, hd⟩ := trailingBareRef_some h
    refine ⟨Or.inr ⟨rest.reverse, ?_⟩, hne, hd⟩
    have ht : t = (ds.reverse ++ '#' :: rest).reverse := by
      rw [← hr, List.reverse_reverse]
    rw [ht]
    simp

theorem findPrRef_eq_trailingRef {t : List Char}
    (htrail : ∀ c, t.getLast? = some c → isWs c = false) :
    findPrRef t = trailingRef t := by
  cases hf : findPrRef t with
  | some ds =>
    obtain ⟨hdec, hne, hd⟩ := findPrRef_some hf
    rcases hdec with ⟨a, ha⟩ | ⟨a, w, ha, hw⟩
    · rw [ha, trailingRef_paren a hne hd]
    · have hwnil : w = [] := by
        cases hwc : w with
        | nil => rfl
        | cons x xs =>
          exfalso
          obtain ⟨cw, hcw⟩ := getLast?_exists_of_ne_nil (l := w)
            (by rw [hwc]; simp)
          have hlast : t.getLast? = some cw := by
            rw [ha]
            rw [List.getLast?_append_of_ne_nil a (by simp)]
            rw [getLast?_cons_ne_nil '#'
              (fun hh => hne (List.append_eq_nil.mp hh).1)]
            rw [List.getLast?_append_of_ne_nil ds (by rw [hwc]; simp)]
            exact hcw
          have hw1 : isWs cw = false := htrail cw hlast
          have hw2 : isWs cw = true :=
            List.all_eq_true.mp hw cw (mem_of_getLast?_eq hcw)
          rw [hw1] at hw2
          exact Bool.noConfusion hw2
      subst hwnil
      rw [List.append_nil] at ha
      rw [ha, trailingRef_bare a hne hd]
  | none =>
    cases ht : trailingRef t with
    | none => rfl
    | some ds =>
      exfalso
      obtain ⟨hdec, hne, hd⟩ := trailingRef_some ht
      rcases hdec with ⟨a, ha⟩ | ⟨a, ha⟩
      · rw [ha, findPrRef_append_paren a hne hd] at hf
        exact Option.noConfusion hf
      · rw [ha, findPrRef_append_bare a hne hd] at hf
        exact Option.noConfusion hf

/-- C6: `getPrNumber` agrees everywhere with the claim-side reading: absent
input yields absent; otherwise only the trimmed first line matters, and the
result is the parsed digit run of the reference anchored at the end of that
line — `(#digits)` or bare `#digits` — so of several `#digits` references
only the final, line-end-anchored one is honored, and a line without such a
trailing reference (including non-numeric content after `#`) yields absent. -/
theorem getPrNumber_eq_spec (m : Option String) :
    getPrNumber m = getPrNumberSpec m := by
  cases m with
  | none => rfl
  | some msg =>
    simp only [getPrNumber, getPrNumberSpec]
    have heq := findPrRef_eq_trailingRef (t := (jsTrim (firstLineOf msg)).toList)
      (fun c hc => getLast?_trimList_not_ws hc)
    rw [heq]

/-! ## C5 (continued): a residual pattern forces a strictly shorter second pass

Every matcher consumes at least its keyword, so a successful match is
non-empty; a replacement that fires therefore strictly shortens the string,
and `cleanSummary` only ever shortens, so an input whose cleaned output still
contains a pattern cannot be a fixed point. -/

theorem matchCI_cons_length_lt {p : Char} {ps l r : List Char}
    (h : matchCI (p :: ps) l = some r) : r.length < l.length := by
  cases l with
  | nil => exact absurd h (by simp [matchCI])
  | cons c cs =>
    simp only [matchCI] at h
    by_cases hc : c.toLower = p
    · rw [if_pos hc] at h
      have hle := (matchCI_suffix h).sublist.length_le
      simp only [List.length_cons]
      omega
    · rw [if_neg hc] at h
      exact absurd h (by simp)

theorem matchPrKeyword_length_lt {cs r : List Char}
    (h : matchPrKeyword cs = some r) : r.length < cs.length := by
  unfold matchPrKeyword at h
  split at h
  · rename_i r1 h1
    simp only [Option.some.injEq] at h
    subst h
    exact matchCI_cons_length_lt h1
  · split at h
    · rename_i r2 h2
      simp only [Option.some.injEq] at h
      subst h
      exact matchCI_cons_length_lt h2
    · split at h
      · rename_i r3 h3
        split at h
        · exact absurd h (by simp)
        · have ha := matchCI_cons_length_lt h
          have hb : (r3.dropWhile isWs).length ≤ r3.length :=
            dropWhile_suffix_of.sublist.length_le
          have hc := matchCI_cons_length_lt h3
          omega
      · exact absurd h (by simp)

theorem prMatch_length_lt {cs r : List Char} (h : prMatch cs = some r) :
    r.length < cs.length := by
  unfold prMatch at h
  split at h
  · exact absurd h (by simp)
  · rename_i r1 h1
    have hk := matchPrKeyword_length_lt h1
    have hd : (cs.dropWhile isWs).length ≤ cs.length :=
      dropWhile_suffix_of.sublist.length_le
    have h2 := (digitsRun_suffix h).sublist.length_le
    have h3 : (skipHash (r1.dropWhile isWs)).length ≤ (r1.dropWhile isWs).length :=
      (skipHash_suffix _).sublist.length_le
    have h4 : (r1.dropWhile isWs).length ≤ r1.length :=
      dropWhile_suffix_of.sublist.length_le
    omega

theorem commitMatch_length_lt {cs r : List Char} (h : commitMatch cs = some r) :
    r.length < cs.length := by
  unfold commitMatch at h
  split at h
  · exact absurd h (by simp)
  · rename_i r1 h1
    have hk := matchCI_cons_length_lt h1
    have hd : (cs.dropWhile isWs).length ≤ cs.length :=
      dropWhile_suffix_of.sublist.length_le
    have h2 := (matchNonWs_suffix h).sublist.length_le
    have h3 : (r1.dropWhile isWs).length ≤ r1.length :=
      dropWhile_suffix_of.sublist.length_le
    omega

theorem authorMatch_length_lt {cs r : List Char} (h : authorMatch cs = some r) :
    r.length < cs.length := by
  unfold authorMatch at h
  split at h
  · rename_i r1 h1
    have hk := matchCI_cons_length_lt h1
    have hd : (cs.dropWhile isWs).length ≤ cs.length :=
      dropWhile_suffix_of.sublist.length_le
    have h2 := (atToken_suffix h).sublist.length_le
    have h3 : (r1.dropWhile isWs).length ≤ r1.length :=
      dropWhile_suffix_of.sublist.length_le
    omega
  · rename_i h1
    split at h
    · rename_i r1 h2
      have hk := matchCI_cons_length_lt h2
      have hd : (cs.dropWhile isWs).length ≤ cs.length :=
        dropWhile_suffix_of.sublist.length_le
      have h5 := (atToken_suffix h).sublist.length_le
      have h3 : (r1.dropWhile isWs).length ≤ r1.length :=
        dropWhile_suffix_of.sublist.length_le
      omega
    · exact absurd h (by simp)

theorem replFirst_some_of_match {m : List Char → Option (List Char)} :
    ∀ {l : List Char} {b : Bool}, hasMatchLS m l b = true →
      ∃ res, replFirst m l b = some res
  | [], b, h => by
    simp only [hasMatchLS, Bool.and_eq_true] at h
    obtain ⟨hb, hm⟩ := h
    obtain ⟨res, hres⟩ := Option.isSome_iff_exists.mp hm
    subst hb
    exact ⟨res, by simp [replFirst, hres]⟩
  | c :: cs, b, h => by
    simp only [hasMatchLS, Bool.or_eq_true, Bool.and_eq_true] at h
    rcases h with ⟨hb, hm⟩ | h
    · subst hb
      obtain ⟨rest, hrest⟩ := Option.isSome_iff_exists.mp hm
      exact ⟨rest, by simp [replFirst, hrest]⟩
    · obtain ⟨res, hres⟩ := replFirst_some_of_match h
      cases b with
      | false => exact ⟨c :: res, by simp [replFirst, hres]⟩
      | true =>
        cases hmm : m (c :: cs) with
        | some rest => exact ⟨rest, by simp [replFirst, hmm]⟩
        | none => exact ⟨c :: res, by simp [replFirst, hmm, hres]⟩

theorem replFirst_length_lt {m : List Char → Option (List Char)}
    (hm : ∀ l r, m l = some r → r.length < l.length) :
    ∀ {l : List Char} {b : Bool} {res : List Char},
      replFirst m l b = some res → res.length < l.length
  | [], b, res, h => by
    simp only [replFirst] at h
    cases b
    · exact absurd h (by simp)
    · simp only [if_true] at h
      exact hm [] res h
  | c :: cs, b, res, h => by
    simp only [replFirst] at h
    have hstep : (replFirst m cs (c = '\n')).map (c :: ·) = some res →
        res.length < (c :: cs).length := by
      intro hs
      cases hr : replFirst m cs (c = '\n') with
      | none => rw [hr] at hs; exact absurd hs (by simp)
      | some res' =>
        rw [hr] at hs
        simp only [Option.map_some', Option.some.injEq] at hs
        subst hs
        have := replFirst_length_lt hm hr
        simp only [List.length_cons]
        omega
    cases b
    · simp only [if_neg (by simp : ¬(false = true))] at h
      exact hstep h
    · simp only [if_true] at h
      cases hmm : m (c :: cs) with
      | some rest =>
        rw [hmm] at h
        simp only [Option.some.injEq] at h
        subst h
        exact hm _ _ hmm
      | none =>
        rw [hmm] at h
        exact hstep h

theorem replAllAux_length_lt {m : List Char → Option (List Char)}
    (hmlt : ∀ l r, m l = some r → r.length < l.length)
    (hmsuf : ∀ l r, m l = some r → r <:+ l) :
    ∀ (fuel : Nat) {l : List Char} {b : Bool}, l.length < fuel →
      hasMatchLS m l b = true →
      (replAllAux m fuel l b).length < l.length
  | 0, l, _, hf, _ => absurd hf (by omega)
  | _ + 1, [], b, _, h => by
    simp only [hasMatchLS, Bool.and_eq_true] at h
    obtain ⟨_, hm⟩ := h
    obtain ⟨r, hr⟩ := Option.isSome_iff_exists.mp hm
    have := hmlt [] r hr
    simp at this
  | fuel + 1, c :: cs, b, hf, h => by
    simp only [hasMatchLS, Bool.or_eq_true, Bool.and_eq_true] at h
    simp only [replAllAux]
    cases b with
    | false =>
      simp only [if_neg (by simp : ¬(false = true))]
      rcases h with ⟨hb, _⟩ | h
      · exact Bool.noConfusion hb
      · have ih := replAllAux_length_lt hmlt hmsuf fuel
          (by simp only [List.length_cons] at hf; omega) h
        simp only [List.length_cons]
        omega
    | true =>
      simp only [if_true]
      cases hmm : m (c :: cs) with
      | some rest =>
        show (replAllAux m fuel rest false).length < (c :: cs).length
        have h1 := hmlt _ _ hmm
        have h2 := (replAllAux_sublist hmsuf fuel rest false).length_le
        omega
      | none =>
        show (c :: replAllAux m fuel cs (c = '\n')).length < (c :: cs).length
        rcases h with ⟨_, hm⟩ | h
        · rw [hmm] at hm
          simp at hm
        · have ih := replAllAux_length_lt hmlt hmsuf fuel
            (by simp only [List.length_cons] at hf; omega) h
          simp only [List.length_cons]
          omega

theorem replaceFirstPat_length_lt {m : List Char → Option (List Char)}
    (hm : ∀ l r, m l = some r → r.length < l.length)
    {s : String} (h : hasMatchLS m s.toList true = true) :
    (replaceFirstPat m s).toList.length < s.toList.length := by
  obtain ⟨res, hres⟩ := replFirst_some_of_match h
  unfold replaceFirstPat
  rw [hres]
  exact replFirst_length_lt hm hres

theorem cleanSummary_length_lt_of_match {t : String}
    (h : hasPrPat t = true ∨ hasCommitPat t = true ∨ hasAuthorPat t = true) :
    (cleanSummary t).toList.length < t.toList.length := by
  have htrim : ∀ u : String, (jsTrim u).toList.length ≤ u.toList.length :=
    fun u => (trimList_sublist u.toList).length_le
  have hC : ∀ u : String,
      (replaceFirstPat commitMatch u).toList.length ≤ u.toList.length :=
    fun u => (replaceFirstPat_sublist (fun l r hh => commitMatch_suffix hh) u).length_le
  have hA : ∀ u : String,
      (replaceAllPat authorMatch u).toList.length ≤ u.toList.length :=
    fun u => (replaceAllPat_sublist (fun l r hh => authorMatch_suffix hh) u).length_le
  cases hp : hasPrPat t with
  | true =>
    have h1 := replaceFirstPat_length_lt (fun l r hh => prMatch_length_lt hh) hp
    have h2 := hC (replaceFirstPat prMatch t)
    have h3 := hA (replaceFirstPat commitMatch (replaceFirstPat prMatch t))
    have h4 := htrim
      (replaceAllPat authorMatch (replaceFirstPat commitMatch (replaceFirstPat prMatch t)))
    unfold cleanSummary
    omega
  | false =>
    have hPt : replaceFirstPat prMatch t = t := by
      unfold replaceFirstPat
      rw [replFirst_eq_none_of_no_match hp]
    cases hcm : hasCommitPat t with
    | true =>
      have h1 := replaceFirstPat_length_lt (fun l r hh => commitMatch_length_lt hh) hcm
      have h3 := hA (replaceFirstPat commitMatch t)
      have h4 := htrim (replaceAllPat authorMatch (replaceFirstPat commitMatch t))
      unfold cleanSummary
      rw [hPt]
      omega
    | false =>
      have hCt : replaceFirstPat commitMatch t = t := by
        unfold replaceFirstPat
        rw [replFirst_eq_none_of_no_match hcm]
      have hau : hasAuthorPat t = true := by
        rcases h with h | h | h
        · rw [hp] at h
          exact Bool.noConfusion h
        · rw [hcm] at h
          exact Bool.noConfusion h
        · exact h
      have h1 : (replaceAllPat authorMatch t).toList.length < t.toList.length := by
        show (replAllAux authorMatch (t.toList.length + 1) t.toList true).length <
          t.toList.length
        exact replAllAux_length_lt (fun l r hh => authorMatch_length_lt hh)
          (fun l r hh => authorMatch_suffix hh) _ (by omega) hau
      have h4 := htrim (replaceAllPat authorMatch t)
      unfold cleanSummary
      rw [hPt, hCt]
      omega

/-- C5 (amended): `cleanSummary` is idempotent exactly on those inputs whose
cleaned output contains no further `pr`/`pull`, `commit` or `author`/`user`
pattern occurrence; in general (for example when two `pr:` lines are present)
a second application removes more text. -/
theorem cleanSummary_idem_iff (s : String) :
    cleanSummary (cleanSummary s) = cleanSummary s ↔
      (hasPrPat (cleanSummary s) = false ∧ hasCommitPat (cleanSummary s) = false ∧
        hasAuthorPat (cleanSummary s) = false) := by
  constructor
  · intro h
    have hnot : ¬(hasPrPat (cleanSummary s) = true ∨
        hasCommitPat (cleanSummary s) = true ∨
        hasAuthorPat (cleanSummary s) = true) := by
      intro hc
      have hlt := cleanSummary_length_lt_of_match hc
      rw [h] at hlt
      omega
    refine ⟨?_, ?_, ?_⟩
    · cases hx : hasPrPat (cleanSummary s)
      · rfl
      · exact absurd (Or.inl hx) hnot
    · cases hx : hasCommitPat (cleanSummary s)
      · rfl
      · exact absurd (Or.inr (Or.inl hx)) hnot
    · cases hx : hasAuthorPat (cleanSummary s)
      · rfl
      · exact absurd (Or.inr (Or.inr hx)) hnot
  · rintro ⟨h1, h2, h3⟩
    exact cleanSummary_idem_of_clean s h1 h2 h3
